import Mathlib

/-!
Verification of the 3x3 sliding-tile search framework in `472_lab1.py`.

States are length-9 lists of tile numbers (0 = blank), row-major.
Actions are the one-character move labels 'D', 'U', 'R', 'L'.
-/

set_option maxHeartbeats 1000000

/-- The default goal board `(1, 2, 3, 4, 5, 6, 7, 8, 0)` used by all three
`EightPuzzle*` classes. -/
def goalState : List Nat := [1, 2, 3, 4, 5, 6, 7, 8, 0]

/-- `EightPuzzle.find_blank_square`: `state.index(0)`, the index of the blank. -/
def find_blank_square (s : List Nat) : Nat := s.indexOf 0

/-- `EightPuzzle.actions` (identical in `EightPuzzle2`/`EightPuzzle3`):
start from `['D', 'U', 'R', 'L']` and remove the moves that would push the
blank off the grid, based on the blank's index. -/
def EightPuzzle.actions (s : List Nat) : List Char :=
  let ib := find_blank_square s
  let p0 := ['D', 'U', 'R', 'L']
  let p1 := if ib % 3 = 0 then p0.erase 'R' else p0
  let p2 := if ib < 3 then p1.erase 'D' else p1
  let p3 := if ib % 3 = 2 then p2.erase 'L' else p2
  let p4 := if ib > 5 then p3.erase 'U' else p3
  p4

/-- The `delta` dictionary in `EightPuzzle.result`:
`{'D': -3, 'U': 3, 'R': -1, 'L': 1}` (only these four keys exist). -/
def delta (a : Char) : Int :=
  if a = 'D' then -3 else if a = 'U' then 3 else if a = 'R' then -1 else 1

/-- `EightPuzzle.result` (identical in `EightPuzzle2`/`EightPuzzle3`): swap the
blank with the entry at `blank + delta[action]`.  A negative Python index reads
from the end of the list, which the `if nI < 0` branch reproduces (it is never
taken for an action returned by `actions`). -/
def EightPuzzle.result (s : List Nat) (a : Char) : List Nat :=
  let blank := find_blank_square s
  let nI : Int := (blank : Int) + delta a
  let neighbor : Nat := (if nI < 0 then (s.length : Int) + nI else nI).toNat
  (s.set blank (s.getD neighbor 0)).set neighbor (s.getD blank 0)

/-- `EightPuzzle.goal_test` (identical in the other two classes):
`state == self.goal`. -/
def EightPuzzle.goal_test (goal s : List Nat) : Bool := s == goal

/-- The inversion count computed inside `EightPuzzle.check_solvability`:
number of pairs `i < j` with `state[i] > state[j]`, both entries nonzero. -/
def inversionCount (s : List Nat) : Nat :=
  ((List.range s.length).map (fun i =>
    (List.range' (i + 1) (s.length - (i + 1))).countP (fun j =>
      decide (s.getD i 0 > s.getD j 0) && (s.getD i 0 != 0) && (s.getD j 0 != 0)))).sum

/-- `EightPuzzle.check_solvability` (identical in the other two classes):
the inversion count is even. -/
def check_solvability (s : List Nat) : Bool := inversionCount s % 2 = 0

/-- `EightPuzzle.h` on the state level: `sum(s != g for (s, g) in
zip(node.state, self.goal))`, the number of positions where the state differs
from the goal (the blank's position included). -/
def EightPuzzle.hState (goal s : List Nat) : Nat :=
  (s.zip goal).countP (fun p => p.1 != p.2)

/-- The inner `find_blank` of `EightPuzzle2.h`: walk the state, counting
positions starting at 1, and stop at the first 0; one plus the index of the
first blank (or the length if there is none). -/
def EightPuzzle2.find_blank : List Nat → Nat
  | [] => 0
  | x :: xs => if x = 0 then 1 else 1 + EightPuzzle2.find_blank xs

/-- `EightPuzzle2.h` on the state level: a hand-coded table keyed by the
1-based position of the blank. -/
def EightPuzzle2.hState (s : List Nat) : Nat :=
  let num := EightPuzzle2.find_blank s
  if num = 8 ∨ num = 6 then 1
  else if num = 3 ∨ num = 5 ∨ num = 7 then 2
  else if num = 2 ∨ num = 4 then 3
  else if num = 1 then 4
  else 0

/-- The hardcoded table of `EightPuzzle3.h`: for a grid index `i` (0-8) and the
tile value found there, the summand added by the corresponding `if` block.
Transcribed entry by entry from the source; any other pair contributes 0. -/
def manhattanTable (i v : Nat) : Nat :=
  match i, v with
  | 0, 1 => 1 | 0, 2 => 0 | 0, 3 => 2 | 0, 4 => 1 | 0, 5 => 2
  | 0, 6 => 3 | 0, 7 => 2 | 0, 8 => 3 | 0, 0 => 4
  | 1, 1 => 0 | 1, 2 => 1 | 1, 3 => 1 | 1, 4 => 2 | 1, 5 => 1
  | 1, 6 => 2 | 1, 7 => 3 | 1, 8 => 2 | 1, 0 => 3
  | 2, 1 => 2 | 2, 2 => 1 | 2, 3 => 0 | 2, 4 => 3 | 2, 5 => 2
  | 2, 6 => 1 | 2, 7 => 4 | 2, 8 => 3 | 2, 0 => 2
  | 3, 1 => 1 | 3, 2 => 2 | 3, 3 => 3 | 3, 4 => 0 | 3, 5 => 1
  | 3, 6 => 2 | 3, 7 => 1 | 3, 8 => 2 | 3, 0 => 3
  | 4, 1 => 2 | 4, 2 => 1 | 4, 3 => 2 | 4, 4 => 1 | 4, 5 => 0
  | 4, 6 => 1 | 4, 7 => 2 | 4, 8 => 1 | 4, 0 => 2
  | 5, 1 => 3 | 5, 2 => 2 | 5, 3 => 1 | 5, 4 => 2 | 5, 5 => 1
  | 5, 6 => 0 | 5, 7 => 3 | 5, 8 => 2 | 5, 0 => 1
  | 6, 1 => 2 | 6, 2 => 3 | 6, 3 => 4 | 6, 4 => 1 | 6, 5 => 2
  | 6, 6 => 3 | 6, 7 => 0 | 6, 8 => 1 | 6, 0 => 2
  | 7, 1 => 3 | 7, 2 => 2 | 7, 3 => 3 | 7, 4 => 2 | 7, 5 => 1
  | 7, 6 => 2 | 7, 7 => 1 | 7, 8 => 0 | 7, 0 => 1
  | 8, 1 => 4 | 8, 2 => 3 | 8, 3 => 2 | 8, 4 => 3 | 8, 5 => 2
  | 8, 6 => 1 | 8, 7 => 2 | 8, 8 => 1 | 8, 0 => 0
  | _, _ => 0

/-- `EightPuzzle3.h` on the state level: `for i in state:` iterates over the
*values* of the state; the block for value `i` then reads `state[i]` and adds
the table entry for grid index `i` and tile `state[i]`. -/
def EightPuzzle3.hState (s : List Nat) : Nat :=
  (s.map (fun i => manhattanTable i (s.getD i 0))).sum

/-- The spec's description of H3 (for comparison with the code's table): the
grid index a tile occupies in the goal configuration `(1,...,8,0)`. -/
def goalIndexOfTile (t : Nat) : Nat := if t = 0 then 8 else t - 1

/-- The spec's description of H3: Manhattan distance between two grid indices
of the 3x3 board. -/
def gridManhattan (a b : Nat) : Nat :=
  (max (a / 3) (b / 3) - min (a / 3) (b / 3)) +
    (max (a % 3) (b % 3) - min (a % 3) (b % 3))

/-- The spec's description of H3: the standard sum-of-Manhattan-distances
heuristic over all nine grid positions, blank included. -/
def specManhattanSum (s : List Nat) : Nat :=
  ((List.range 9).map (fun i => gridManhattan i (goalIndexOfTile (s.getD i 0)))).sum

/-! ## The generic search framework: `Problem`, `Node`, and the search
algorithms of the source, instantiated with unit path cost. -/

/-- The `Problem` interface: the constructor stores `initial` and `goal`, and
a concrete problem provides `actions`, `result`, `goal_test`, `path_cost`
(`path_cost` defaults to `c + 1` in the source; the instances below use
exactly that). -/
structure SProblem (σ α : Type) where
  initial : σ
  goal : σ
  actions : σ → List α
  result : σ → α → σ
  goal_test : σ → Bool
  path_cost : Nat → σ → α → σ → Nat

/-- A search-tree `Node`: the root holds only a state; a child holds its
state, the action that produced it, its accumulated `path_cost`, and its
parent (Python's `parent=None` is the `root` constructor). -/
inductive SNode (σ α : Type) where
  | root (state : σ)
  | child (state : σ) (action : α) (cost : Nat) (parent : SNode σ α)
deriving DecidableEq, Repr

/-- `Node.state`. -/
def SNode.state {σ α : Type} : SNode σ α → σ
  | .root s => s
  | .child s _ _ _ => s

/-- `Node.path_cost` (0 at the root, as in the constructor default). -/
def SNode.path_cost {σ α : Type} : SNode σ α → Nat
  | .root _ => 0
  | .child _ _ c _ => c

/-- `Node.depth`: parent depth + 1, or 0 for the root. -/
def SNode.depth {σ α : Type} : SNode σ α → Nat
  | .root _ => 0
  | .child _ _ _ p => p.depth + 1

/-- `Node.solution()`: the actions along the root-to-node path. -/
def SNode.solution {σ α : Type} : SNode σ α → List α
  | .root _ => []
  | .child _ a _ p => p.solution ++ [a]

/-- `Node.expand(problem)`: one child per legal action, with state
`problem.result`, the producing action, and cost from `problem.path_cost`. -/
def SNode.expand {σ α : Type} (p : SProblem σ α) (n : SNode σ α) : List (SNode σ α) :=
  (p.actions n.state).map (fun a =>
    SNode.child (p.result n.state a) a
      (p.path_cost n.path_cost n.state a (p.result n.state a)) n)

/-- The states of the nodes of a list (Python `Node.__eq__`/`__hash__` compare
nodes by state, so `child in frontier` is a state-membership test). -/
def statesOf {σ α : Type} (l : List (SNode σ α)) : List σ := l.map SNode.state

/-- The inner `for child in node.expand(problem)` loop of
`breadth_first_graph_search` (lines 152-158): a child whose state is in
neither the explored set nor the current frontier is either returned at once
(if it passes the goal test) or appended to the frontier. -/
def bfsProcess {σ α : Type} [DecidableEq σ] (p : SProblem σ α) (explored : List σ) :
    List (SNode σ α) → List (SNode σ α) → Sum (SNode σ α) (List (SNode σ α))
  | frontier, [] => Sum.inr frontier
  | frontier, c :: cs =>
    if c.state ∉ explored ∧ c.state ∉ statesOf frontier then
      if p.goal_test c.state then Sum.inl c
      else bfsProcess p explored (frontier ++ [c]) cs
    else bfsProcess p explored frontier cs

/-- The `while frontier:` loop of `breadth_first_graph_search`, with explicit
fuel (the Python loop terminates because the explored set grows). -/
def bfsLoop {σ α : Type} [DecidableEq σ] (p : SProblem σ α) :
    Nat → List (SNode σ α) → List σ → Option (SNode σ α)
  | 0, _, _ => none
  | _ + 1, [], _ => none
  | fuel + 1, node :: rest, explored =>
    match bfsProcess p (node.state :: explored) rest (SNode.expand p node) with
    | Sum.inl c => some c
    | Sum.inr front => bfsLoop p fuel front (node.state :: explored)

/-- `breadth_first_graph_search` (lines 138-159): FIFO frontier, explored set,
goal test at generation time; `None` when the frontier empties. -/
def breadth_first_graph_search {σ α : Type} [DecidableEq σ] (p : SProblem σ α)
    (fuel : Nat) : Option (SNode σ α) :=
  if p.goal_test p.initial then some (SNode.root p.initial)
  else bfsLoop p fuel [SNode.root p.initial] []

/-- The three-valued result of `recursive_dls`: a node, the string `'cutoff'`,
or `None` (failure). -/
inductive DLSResult (σ α : Type) where
  | found (n : SNode σ α)
  | cutoff
  | failure
deriving DecidableEq, Repr

/-- The `for child in node.expand(problem)` loop of `recursive_dls` with its
`cutoff_occurred` flag: `'cutoff'` sets the flag, a node is returned at once,
`None` is skipped; after the loop, `'cutoff'` if the flag is set else `None`. -/
def dlsGo {σ α : Type} (rec : SNode σ α → DLSResult σ α) :
    List (SNode σ α) → Bool → DLSResult σ α
  | [], flag => if flag then DLSResult.cutoff else DLSResult.failure
  | c :: cs, flag =>
    match rec c with
    | DLSResult.cutoff => dlsGo rec cs true
    | DLSResult.found n => DLSResult.found n
    | DLSResult.failure => dlsGo rec cs flag

/-- `recursive_dls` (lines 199-215): goal test first, then the `limit == 0`
cutoff, then the recursion over the children with `limit - 1`. -/
def recursive_dls {σ α : Type} (p : SProblem σ α) (limit : Nat) (node : SNode σ α) :
    DLSResult σ α :=
  if p.goal_test node.state then DLSResult.found node
  else
    match limit with
    | 0 => DLSResult.cutoff
    | l + 1 => dlsGo (fun c => recursive_dls p l c) (SNode.expand p node) false

/-- `depth_limited_search` (lines 196-218). -/
def depth_limited_search {σ α : Type} (p : SProblem σ α) (limit : Nat) : DLSResult σ α :=
  recursive_dls p limit (SNode.root p.initial)

/-! ### Best-first graph search.

`utils.py` (with `PriorityQueue` and `memoize`) is imported by the source but
is not part of the given source tree, so the frontier is modelled from the
spec.  Modelled from the spec: `utils.PriorityQueue` is "the open set of
nodes", a priority frontier "ordered by ascending `f`" storing an `f`-value
with each node, supporting: `pop` of a minimum-`f` entry, membership and
lookup of the stored `f`-value by node state, and deletion of the entry for a
state.  `memoize` caches `f` per node; since the modelled `f` is a pure
function of the node, memoization is semantically the identity and is not
modelled. -/

/-- Modelled from the spec: pop a minimum-`f` entry of the priority frontier
(the first such entry, for determinism), returning it and the rest. -/
def pqPop {σ α : Type} : List (Nat × SNode σ α) →
    Option ((Nat × SNode σ α) × List (Nat × SNode σ α))
  | [] => none
  | e :: rest =>
    match pqPop rest with
    | none => some (e, [])
    | some (m, rest') => if e.1 ≤ m.1 then some (e, rest) else some (m, e :: rest')

/-- The states stored in the priority frontier. -/
def pqStates {σ α : Type} (q : List (Nat × SNode σ α)) : List σ :=
  q.map (fun e => e.2.state)

/-- Modelled from the spec: `frontier[child]`, the `f`-value stored with the
(first) entry whose node has the given state. -/
def pqLookup {σ α : Type} [DecidableEq σ] : List (Nat × SNode σ α) → σ → Option Nat
  | [], _ => none
  | e :: rest, s => if e.2.state = s then some e.1 else pqLookup rest s

/-- Modelled from the spec: `del frontier[child]`, removing the (first) entry
whose node has the given state. -/
def pqRemove {σ α : Type} [DecidableEq σ] : List (Nat × SNode σ α) → σ →
    List (Nat × SNode σ α)
  | [], _ => []
  | e :: rest, s => if e.2.state = s then rest else e :: pqRemove rest s

/-- The body of the `for child in node.expand(problem)` loop of
`best_first_graph_search` (lines 183-189): a child in neither explored nor the
frontier is appended (with its `f`-value); a child whose state is already in
the frontier replaces the stored entry exactly when its `f` is strictly
smaller; otherwise it is discarded. -/
def bestFirstStep {σ α : Type} [DecidableEq σ] (f : SNode σ α → Nat)
    (explored : List σ) (q : List (Nat × SNode σ α)) (c : SNode σ α) :
    List (Nat × SNode σ α) :=
  if c.state ∉ explored ∧ c.state ∉ pqStates q then q ++ [(f c, c)]
  else if c.state ∈ pqStates q then
    match pqLookup q c.state with
    | some fOld => if f c < fOld then pqRemove q c.state ++ [(f c, c)] else q
    | none => q
  else q

/-- The `while frontier:` loop of `best_first_graph_search`: pop a minimum-`f`
node, return it if it passes the goal test, otherwise add its state to the
explored set and process its children with `bestFirstStep`. -/
def bestFirstLoop {σ α : Type} [DecidableEq σ] (p : SProblem σ α)
    (f : SNode σ α → Nat) : Nat → List (Nat × SNode σ α) → List σ →
    Option (SNode σ α)
  | 0, _, _ => none
  | fuel + 1, q, explored =>
    match pqPop q with
    | none => none
    | some ((_, node), q') =>
      if p.goal_test node.state then some node
      else
        bestFirstLoop p f fuel
          ((SNode.expand p node).foldl (bestFirstStep f (node.state :: explored)) q')
          (node.state :: explored)

/-- `best_first_graph_search` (lines 162-190): the frontier starts with the
root node and the explored set empty; `None` when the frontier empties. -/
def best_first_graph_search {σ α : Type} [DecidableEq σ] (p : SProblem σ α)
    (f : SNode σ α → Nat) (fuel : Nat) : Option (SNode σ α) :=
  bestFirstLoop p f fuel [(f (SNode.root p.initial), SNode.root p.initial)] []

/-- `astar_search` (lines 240-245): best-first graph search with
`f(n) = n.path_cost + h(n)`. -/
def astar_search {σ α : Type} [DecidableEq σ] (p : SProblem σ α)
    (h : SNode σ α → Nat) (fuel : Nat) : Option (SNode σ α) :=
  best_first_graph_search p (fun n => n.path_cost + h n) fuel

/-! ### Problem instances and the driver. -/

/-- The `EightPuzzle(initial, goal)` problem instance (the classes
`EightPuzzle2` and `EightPuzzle3` define `actions`, `result`, `goal_test` and
`path_cost` identically and differ only in `h`). -/
def eightPuzzle (initial goal : List Nat) : SProblem (List Nat) Char :=
  { initial := initial
    goal := goal
    actions := EightPuzzle.actions
    result := EightPuzzle.result
    goal_test := EightPuzzle.goal_test goal
    path_cost := fun c _ _ _ => c + 1 }

/-- `EightPuzzle.h` as a function of a node (it reads `node.state`). -/
def EightPuzzle.h (goal : List Nat) (n : SNode (List Nat) Char) : Nat :=
  EightPuzzle.hState goal n.state

/-- `EightPuzzle2.h` as a function of a node. -/
def EightPuzzle2.h (n : SNode (List Nat) Char) : Nat :=
  EightPuzzle2.hState n.state

/-- `EightPuzzle3.h` as a function of a node. -/
def EightPuzzle3.h (n : SNode (List Nat) Char) : Nat :=
  EightPuzzle3.hState n.state

/-- Whether every action of a sequence is legal (`problem.actions`) at the
state where it is taken; the notion of an action sequence applying
`problem.result` repeatedly, used to state solution minimality. -/
def validSeq {σ α : Type} [DecidableEq α] (p : SProblem σ α) : σ → List α → Bool
  | _, [] => true
  | s, a :: as => if a ∈ p.actions s then validSeq p (p.result s a) as else false

/-- Repeated application of `problem.result` along an action sequence. -/
def replay {σ α : Type} (p : SProblem σ α) : σ → List α → σ
  | s, [] => s
  | s, a :: as => replay p (p.result s a) as

/-- Outcome of one branch of `main`: either the solvability check failed and
`main` returns before searching, or a search algorithm was invoked. -/
inductive DriverOutcome (σ α : Type) where
  | notSolvable
  | searchInvoked (r : Option (SNode σ α))
deriving DecidableEq, Repr

/-- The `BFS` branch of `main` (lines 734-746).  Note the source passes
`puzzle.goal` to the solvability check:
`EightPuzzle.check_solvability(puzzle, puzzle.goal)`, so the check runs on the
goal board `(1,...,8,0)`, not on the input board. -/
def mainDriverBFS (initial : List Nat) (fuel : Nat) : DriverOutcome (List Nat) Char :=
  if check_solvability (eightPuzzle initial goalState).goal = false then
    DriverOutcome.notSolvable
  else
    DriverOutcome.searchInvoked (breadth_first_graph_search (eightPuzzle initial goalState) fuel)

/-! ## Proof devices: paths, reachability, and the breadth-first invariant. -/

/-- The grid index the blank is moved to by action `a` when the blank is at
index `b` (the `neighbor` of `EightPuzzle.result`, as a `Nat`): the action
label names the direction the *tile* slides, so 'D' moves the blank up a row,
'U' down a row, 'R' left a column, 'L' right a column. -/
def moveDest (b : Nat) (a : Char) : Nat :=
  if a = 'D' then b - 3 else if a = 'U' then b + 3 else if a = 'R' then b - 1 else b + 1

/-- A node records an actual legal path: its `solution()` is a valid action
sequence from `s0` that replays to its state, and its length is the depth. -/
def NodePath {σ α : Type} [DecidableEq α] (p : SProblem σ α) (s0 : σ) (n : SNode σ α) : Prop :=
  validSeq p s0 n.solution = true ∧ replay p s0 n.solution = n.state ∧
    n.solution.length = n.depth

/-- `t` is reachable from `s0` by a valid action sequence of length at most
`m`. -/
def Reach {σ α : Type} [DecidableEq α] (p : SProblem σ α) (s0 t : σ) (m : Nat) : Prop :=
  ∃ acts, validSeq p s0 acts = true ∧ replay p s0 acts = t ∧ acts.length ≤ m

/-- The loop invariant of `breadth_first_graph_search`, relating the FIFO
frontier `q` and the explored set `E` (all with respect to the start state
`s0`). -/
structure BFSInv {σ α : Type} [DecidableEq σ] [DecidableEq α] (p : SProblem σ α)
    (s0 : σ) (q : List (SNode σ α)) (E : List σ) : Prop where
  paths : ∀ n ∈ q, NodePath p s0 n
  sorted : q.Pairwise (fun a b => SNode.depth a ≤ SNode.depth b)
  twoLevels : ∀ n ∈ q, ∀ m ∈ q, SNode.depth n ≤ SNode.depth m + 1
  optimal : ∀ n ∈ q, ∀ m, Reach p s0 (SNode.state n) m → SNode.depth n ≤ m
  exploredLT : ∀ t m, Reach p s0 t m → (∀ n ∈ q, m < SNode.depth n) → t ∈ E
  closure : ∀ s ∈ E, ∀ a ∈ p.actions s, p.result s a ∈ E ∨ p.result s a ∈ statesOf q
  nongoalQ : ∀ n ∈ q, p.goal_test (SNode.state n) = false
  nongoalE : ∀ s ∈ E, p.goal_test s = false
  nodupQ : (statesOf q).Nodup
  disjQE : ∀ s ∈ statesOf q, s ∉ E
  nodupE : E.Nodup
  rootIn : s0 ∈ E ∨ s0 ∈ statesOf q

/-- The number of misplaced non-blank tiles: positions where the state
differs from the goal and does not hold the blank.  A proof device for
analysing `EightPuzzle.h`, which equals this count plus at most one for the
blank's own cell; unlike `EightPuzzle.h` it changes by at most 1 per move. -/
def missCount (goal s : List Nat) : Nat :=
  (s.zip goal).countP (fun pr => pr.1 != pr.2 && pr.1 != 0)

/-- A board that is a permutation of 0..8, seen as the permutation of grid
indices sending position `i` to the tile value at `i` (a proof device for the
move-parity argument: each legal move composes this permutation with a
transposition, so its sign flips on every move). -/
def statePerm (s : List Nat) (h : List.Perm s (List.range 9)) : Equiv.Perm (Fin 9) where
  toFun i := ⟨s.getD i.1 0, by
    have h9 : s.length = 9 := by simpa using h.length_eq
    have hi : i.1 < s.length := by rw [h9]; exact i.2
    rw [List.getD_eq_getElem s 0 hi]
    have : s[i.1] ∈ s := List.getElem_mem hi
    have := h.mem_iff.mp this
    simpa using this⟩
  invFun v := ⟨s.indexOf v.1, by
    have h9 : s.length = 9 := by simpa using h.length_eq
    have hv : v.1 ∈ s := h.mem_iff.mpr (by simpa using v.2)
    have := List.indexOf_lt_length.mpr hv
    omega⟩
  left_inv := by
    intro i
    have h9 : s.length = 9 := by simpa using h.length_eq
    have hnd : s.Nodup := h.nodup_iff.mpr (List.nodup_range 9)
    have hi : i.1 < s.length := by rw [h9]; exact i.2
    apply Fin.ext
    show s.indexOf (s.getD i.1 0) = i.1
    rw [List.getD_eq_getElem s 0 hi]
    have hlt : s.indexOf s[i.1] < s.length :=
      List.indexOf_lt_length.mpr (List.getElem_mem hi)
    have hget : s[s.indexOf s[i.1]] = s[i.1] := List.getElem_indexOf hlt
    exact List.Nodup.getElem_inj_iff hnd |>.mp hget
  right_inv := by
    intro v
    have h9 : s.length = 9 := by simpa using h.length_eq
    have hv : v.1 ∈ s := h.mem_iff.mpr (by simpa using v.2)
    apply Fin.ext
    show s.getD (s.indexOf v.1) 0 = v.1
    have hlt : s.indexOf v.1 < s.length := List.indexOf_lt_length.mpr hv
    rw [List.getD_eq_getElem s 0 hlt]
    exact List.getElem_indexOf hlt

/-- The loop invariant of `best_first_graph_search` run as A*: `gE` is a ghost
assignment recording, for each explored state, the (optimal) path length it
was expanded with; `hfun` is the heuristic on states. -/
structure AInv {σ α : Type} [DecidableEq σ] [DecidableEq α] (p : SProblem σ α)
    (hfun : σ → Nat) (s0 : σ) (gE : σ → Nat) (q : List (Nat × SNode σ α))
    (E : List σ) : Prop where
  entries : ∀ e ∈ q, e.1 = e.2.path_cost + hfun (SNode.state e.2) ∧
    validSeq p s0 (SNode.solution e.2) = true ∧
    replay p s0 (SNode.solution e.2) = SNode.state e.2 ∧
    (SNode.solution e.2).length = SNode.path_cost e.2
  nodupQ : (pqStates q).Nodup
  disjQE : ∀ s ∈ pqStates q, s ∉ E
  nongoalE : ∀ s ∈ E, p.goal_test s = false
  nodupE : E.Nodup
  closedPaths : ∀ s ∈ E, ∃ w, validSeq p s0 w = true ∧ replay p s0 w = s ∧
    w.length = gE s
  closedOpt : ∀ s ∈ E, ∀ m, Reach p s0 s m → gE s ≤ m
  closure : ∀ s ∈ E, ∀ a ∈ p.actions s, p.result s a ∈ E ∨
    ∃ e ∈ q, SNode.state e.2 = p.result s a ∧ SNode.path_cost e.2 ≤ gE s + 1
  rootIn : s0 ∈ E ∨ ∃ e ∈ q, SNode.state e.2 = s0 ∧ SNode.path_cost e.2 = 0

/-- The part of `AInv` that concerns the frontier alone, preserved by each
`bestFirstStep` while the children of an expanded node are folded in. -/
structure QInv {σ α : Type} [DecidableEq σ] [DecidableEq α] (p : SProblem σ α)
    (hfun : σ → Nat) (s0 : σ) (ex : List σ) (q : List (Nat × SNode σ α)) : Prop where
  entries : ∀ e ∈ q, e.1 = SNode.path_cost e.2 + hfun (SNode.state e.2) ∧
    validSeq p s0 (SNode.solution e.2) = true ∧
    replay p s0 (SNode.solution e.2) = SNode.state e.2 ∧
    (SNode.solution e.2).length = SNode.path_cost e.2
  nodup : (pqStates q).Nodup
  disj : ∀ s ∈ pqStates q, s ∉ ex

/-! ## Theorems. -/

/-! ### List helpers. -/

lemma getD_set_ne {β : Type} (l : List β) (i j : Nat) (v d : β) (h : i ≠ j) :
    (l.set i v).getD j d = l.getD j d := by
  rw [List.getD_eq_getElem?_getD, List.getD_eq_getElem?_getD, List.getElem?_set_ne h]

lemma getD_set_self {β : Type} (l : List β) (i : Nat) (v d : β) (h : i < l.length) :
    (l.set i v).getD i d = v := by
  rw [List.getD_eq_getElem?_getD, List.getElem?_set_eq_of_lt v h]
  rfl

lemma cons_swap_perm {β : Type} (x d : β) :
    ∀ (xs : List β) (k : Nat), k < xs.length →
      List.Perm (xs.getD k d :: xs.set k x) (x :: xs)
  | [], k, hk => absurd hk (by simp)
  | y :: ys, 0, _ => by
    simpa using List.Perm.swap x y ys
  | y :: ys, k + 1, hk => by
    have hk' : k < ys.length := by simpa using hk
    have ih := cons_swap_perm x d ys k hk'
    have h1 : (y :: ys).set (k + 1) x = y :: ys.set k x := by simp
    rw [List.getD_cons_succ, h1]
    exact ((List.Perm.swap y (ys.getD k d) (ys.set k x)).trans
      (List.Perm.cons y ih)).trans (List.Perm.swap x y ys)

lemma set_set_swap_perm {β : Type} (d : β) :
    ∀ (l : List β) (i j : Nat), i < l.length → j < l.length →
      List.Perm ((l.set i (l.getD j d)).set j (l.getD i d)) l
  | [], i, _, hi, _ => absurd hi (by simp)
  | x :: xs, 0, 0, _, _ => by simp
  | x :: xs, 0, k + 1, _, hj => by
    have hk : k < xs.length := by simpa using hj
    have : ((x :: xs).set 0 ((x :: xs).getD (k + 1) d)).set (k + 1) ((x :: xs).getD 0 d)
        = xs.getD k d :: xs.set k x := by simp
    rw [this]
    exact cons_swap_perm x d xs k hk
  | x :: xs, m + 1, 0, hi, _ => by
    have hm : m < xs.length := by simpa using hi
    have : ((x :: xs).set (m + 1) ((x :: xs).getD 0 d)).set 0 ((x :: xs).getD (m + 1) d)
        = xs.getD m d :: xs.set m x := by simp
    rw [this]
    exact cons_swap_perm x d xs m hm
  | x :: xs, m + 1, k + 1, hi, hj => by
    have hm : m < xs.length := by simpa using hi
    have hk : k < xs.length := by simpa using hj
    have ih := set_set_swap_perm d xs m k hm hk
    simpa using List.Perm.cons x ih

/-! ### Actions and result on the puzzle. -/

lemma mem_actions_iff (s : List Nat) (a : Char) (hb : find_blank_square s < 9) :
    a ∈ EightPuzzle.actions s ↔
      ((a = 'D' ∧ 3 ≤ find_blank_square s) ∨ (a = 'U' ∧ find_blank_square s ≤ 5) ∨
        (a = 'R' ∧ find_blank_square s % 3 ≠ 0) ∨ (a = 'L' ∧ find_blank_square s % 3 ≠ 2)) := by
  unfold EightPuzzle.actions
  interval_cases h : find_blank_square s <;> simp

lemma delta_vals : delta 'D' = -3 ∧ delta 'U' = 3 ∧ delta 'R' = -1 ∧ delta 'L' = 1 := by decide

lemma moveDest_D (b : Nat) : moveDest b 'D' = b - 3 := if_pos rfl

lemma moveDest_U (b : Nat) : moveDest b 'U' = b + 3 := by
  unfold moveDest
  rw [if_neg (by decide), if_pos rfl]

lemma moveDest_R (b : Nat) : moveDest b 'R' = b - 1 := by
  unfold moveDest
  rw [if_neg (by decide), if_neg (by decide), if_pos rfl]

lemma moveDest_L (b : Nat) : moveDest b 'L' = b + 1 := by
  unfold moveDest
  rw [if_neg (by decide), if_neg (by decide), if_neg (by decide)]

lemma result_eq_swap (s : List Nat) (a : Char) (ha : a ∈ EightPuzzle.actions s)
    (hb : find_blank_square s < 9) :
    EightPuzzle.result s a =
      (s.set (find_blank_square s) (s.getD (moveDest (find_blank_square s) a) 0)).set
        (moveDest (find_blank_square s) a) (s.getD (find_blank_square s) 0) := by
  obtain ⟨hd1, hd2, hd3, hd4⟩ := delta_vals
  rcases (mem_actions_iff s a hb).mp ha with ⟨rfl, h⟩ | ⟨rfl, h⟩ | ⟨rfl, h⟩ | ⟨rfl, h⟩
  · simp only [EightPuzzle.result, hd1, moveDest_D]
    rw [if_neg (by omega)]
    have : ((find_blank_square s : Int) + -3).toNat = find_blank_square s - 3 := by omega
    rw [this]
  · simp only [EightPuzzle.result, hd2, moveDest_U]
    rw [if_neg (by omega)]
    have : ((find_blank_square s : Int) + 3).toNat = find_blank_square s + 3 := by omega
    rw [this]
  · simp only [EightPuzzle.result, hd3, moveDest_R]
    rw [if_neg (by omega)]
    have : ((find_blank_square s : Int) + -1).toNat = find_blank_square s - 1 := by omega
    rw [this]
  · simp only [EightPuzzle.result, hd4, moveDest_L]
    rw [if_neg (by omega)]
    have : ((find_blank_square s : Int) + 1).toNat = find_blank_square s + 1 := by omega
    rw [this]

lemma moveDest_lt (s : List Nat) (a : Char) (ha : a ∈ EightPuzzle.actions s)
    (hb : find_blank_square s < 9) :
    moveDest (find_blank_square s) a < 9 ∧
      moveDest (find_blank_square s) a ≠ find_blank_square s := by
  rcases (mem_actions_iff s a hb).mp ha with ⟨rfl, h⟩ | ⟨rfl, h⟩ | ⟨rfl, h⟩ | ⟨rfl, h⟩
  · rw [moveDest_D]; omega
  · rw [moveDest_U]; omega
  · rw [moveDest_R]; omega
  · rw [moveDest_L]; omega

/-! ### C2: the driver's solvability check. -/

/-- C2: the claim says an odd-inversion input board makes the driver's
solvability check return false so that no search is invoked.  On the board
`(2,1,3,4,5,6,7,8,0)` the inversion count is 1 (odd), and `check_solvability`
on that board is indeed false; but `main` evaluates the check on
`puzzle.goal`, not on the input, so the driver does *not* take the
not-solvable branch and invokes the search anyway. -/
theorem mainDriver_runs_search_on_odd_inversion_board :
    check_solvability [2, 1, 3, 4, 5, 6, 7, 8, 0] = false ∧
    inversionCount [2, 1, 3, 4, 5, 6, 7, 8, 0] = 1 ∧
    mainDriverBFS [2, 1, 3, 4, 5, 6, 7, 8, 0] 0 ≠ DriverOutcome.notSolvable := by
  decide

/-! ### C3: the H3 table versus the Manhattan-distance heuristic. -/

/-- C3: the claim says `EightPuzzle3.h` equals the sum of Manhattan distances
to the goal and is 0 on the goal state.  On the goal state the code returns 2,
not 0, because the hardcoded table swaps the rows for tiles 1 and 2 at grid
slots 0 and 1: tile 1 sitting in the top-left slot contributes 1 although its
true Manhattan distance (and the one named by the code's own docstring) is 0. -/
theorem EightPuzzle3_h_differs_from_manhattan :
    EightPuzzle3.hState goalState = 2 ∧ specManhattanSum goalState = 0 ∧
    manhattanTable 0 1 = 1 ∧ gridManhattan 0 (goalIndexOfTile 1) = 0 ∧
    manhattanTable 1 1 = 0 ∧ gridManhattan 1 (goalIndexOfTile 1) = 1 := by
  decide

/-! ### C9: the H2 heuristic depends only on the blank position. -/

lemma find_blank_eq_indexOf (s : List Nat) (h : 0 ∈ s) :
    EightPuzzle2.find_blank s = s.indexOf 0 + 1 := by
  induction s with
  | nil => cases h
  | cons x xs ih =>
    by_cases hx : x = 0
    · subst hx
      simp [EightPuzzle2.find_blank, List.indexOf_cons_self]
    · have hmem : 0 ∈ xs := by
        rcases List.mem_cons.mp h with h' | h'
        · exact absurd h'.symm hx
        · exact h'
      rw [List.indexOf_cons_ne _ (by simpa using hx)]
      simp [EightPuzzle2.find_blank, hx, ih hmem]
      omega

lemma h2_eq_blank_manhattan (s : List Nat) (h9 : s.length = 9) (h0 : 0 ∈ s) :
    EightPuzzle2.hState s = gridManhattan (s.indexOf 0) 8 := by
  have hb : s.indexOf 0 < 9 := h9 ▸ List.indexOf_lt_length.mpr h0
  have hf := find_blank_eq_indexOf s h0
  simp only [EightPuzzle2.hState, hf]
  interval_cases h : s.indexOf 0 <;> decide

/-- C9: for length-9 states with exactly one blank, `EightPuzzle2.h` equals
the Manhattan distance from the blank's grid position to the bottom-right
corner (grid index 8), hence is determined solely by the blank's index: two
such states with the blank at the same index get the same value. -/
theorem EightPuzzle2_h_depends_only_on_blank (s t : List Nat)
    (hs9 : s.length = 9) (hs0 : s.count 0 = 1)
    (ht9 : t.length = 9) (ht0 : t.count 0 = 1) :
    EightPuzzle2.hState s = gridManhattan (s.indexOf 0) 8 ∧
    (t.indexOf 0 = s.indexOf 0 → EightPuzzle2.hState t = EightPuzzle2.hState s) := by
  have hsmem : 0 ∈ s := by
    by_contra h
    rw [List.count_eq_zero_of_not_mem h] at hs0
    exact absurd hs0 (by decide)
  have htmem : 0 ∈ t := by
    by_contra h
    rw [List.count_eq_zero_of_not_mem h] at ht0
    exact absurd ht0 (by decide)
  refine ⟨h2_eq_blank_manhattan s hs9 hsmem, fun hidx => ?_⟩
  rw [h2_eq_blank_manhattan s hs9 hsmem, h2_eq_blank_manhattan t ht9 htmem, hidx]

/-- Witness for C9 at two concrete boards sharing blank index 5. -/
theorem EightPuzzle2_h_depends_only_on_blank_witness :
    EightPuzzle2.hState [1, 2, 3, 4, 5, 0, 7, 8, 6] =
      gridManhattan (([1, 2, 3, 4, 5, 0, 7, 8, 6] : List Nat).indexOf 0) 8 ∧
    (([2, 1, 3, 4, 5, 0, 7, 8, 6] : List Nat).indexOf 0 =
        ([1, 2, 3, 4, 5, 0, 7, 8, 6] : List Nat).indexOf 0 →
      EightPuzzle2.hState [2, 1, 3, 4, 5, 0, 7, 8, 6] =
        EightPuzzle2.hState [1, 2, 3, 4, 5, 0, 7, 8, 6]) :=
  EightPuzzle2_h_depends_only_on_blank [1, 2, 3, 4, 5, 0, 7, 8, 6]
    [2, 1, 3, 4, 5, 0, 7, 8, 6] (by decide) (by decide) (by decide) (by decide)

/-! ### C5: what a move does to the blank. -/

/-- C5 fails as stated: from the board `(1,2,3,4,0,5,6,7,8)` (blank at index 4,
grid row 1) the action `'U'` is legal, but the resulting board has the blank
at index 7 (grid row 2): the blank moved one step *down*, not up as the
claim's label reading says. -/
theorem result_label_counterexample :
    'U' ∈ EightPuzzle.actions [1, 2, 3, 4, 0, 5, 6, 7, 8] ∧
    EightPuzzle.result [1, 2, 3, 4, 0, 5, 6, 7, 8] 'U' = [1, 2, 3, 4, 7, 5, 6, 0, 8] ∧
    ([1, 2, 3, 4, 7, 5, 6, 0, 8] : List Nat).indexOf 0 = 7 ∧
    (7 : Nat) / 3 = 4 / 3 + 1 ∧ ¬ ((7 : Nat) / 3 + 1 = 4 / 3) := by
  decide

lemma getD_zero_mem {l : List Nat} {i : Nat} (hi : i < l.length) (hv : l.getD i 0 = 0) :
    (0 : Nat) ∈ l := by
  rw [List.getD_eq_getElem l 0 hi] at hv
  exact hv ▸ List.getElem_mem hi

lemma count_one_unique_pos :
    ∀ (l : List Nat), l.count 0 = 1 → ∀ i j : Nat, i < l.length → j < l.length →
      l.getD i 0 = 0 → l.getD j 0 = 0 → i = j := by
  intro l
  induction l with
  | nil => intro _ i j hi; simp at hi
  | cons x xs ih =>
    intro hc i j hi hj hvi hvj
    have hcount : xs.count 0 + (if x = 0 then 1 else 0) = 1 := by
      simpa [List.count_cons] using hc
    match i, j with
    | 0, 0 => rfl
    | 0, j + 1 =>
      exfalso
      have hx : x = 0 := by simpa using hvi
      have hj' : j < xs.length := by simpa using hj
      have hmem : (0 : Nat) ∈ xs := getD_zero_mem hj' (by simpa using hvj)
      have : xs.count 0 ≠ 0 := by simpa [List.count_eq_zero] using hmem
      simp [hx] at hcount
      omega
    | i + 1, 0 =>
      exfalso
      have hx : x = 0 := by simpa using hvj
      have hi' : i < xs.length := by simpa using hi
      have hmem : (0 : Nat) ∈ xs := getD_zero_mem hi' (by simpa using hvi)
      have : xs.count 0 ≠ 0 := by simpa [List.count_eq_zero] using hmem
      simp [hx] at hcount
      omega
    | i + 1, j + 1 =>
      have hi' : i < xs.length := by simpa using hi
      have hj' : j < xs.length := by simpa using hj
      by_cases hx : x = 0
      · exfalso
        have hmem : (0 : Nat) ∈ xs := getD_zero_mem hi' (by simpa using hvi)
        have : xs.count 0 ≠ 0 := by simpa [List.count_eq_zero] using hmem
        simp [hx] at hcount
        omega
      · have : xs.count 0 = 1 := by simp [hx] at hcount; omega
        have := ih this i j hi' hj' (by simpa using hvi) (by simpa using hvj)
        omega

lemma perm_length_count (s : List Nat) (hperm : List.Perm s (List.range 9)) :
    s.length = 9 ∧ s.count 0 = 1 ∧ (0 : Nat) ∈ s := by
  refine ⟨by simpa using hperm.length_eq, ?_, ?_⟩
  · rw [hperm.count_eq]
    decide
  · rw [hperm.mem_iff]
    decide

lemma blank_spec (s : List Nat) (h9 : s.length = 9) (h0 : s.count 0 = 1) :
    find_blank_square s < 9 ∧ s.getD (find_blank_square s) 0 = 0 ∧
      ∀ i, i < 9 → s.getD i 0 = 0 → i = find_blank_square s := by
  have hmem : (0 : Nat) ∈ s := by
    by_contra h
    rw [List.count_eq_zero_of_not_mem h] at h0
    exact absurd h0 (by decide)
  have hlt : find_blank_square s < 9 := h9 ▸ List.indexOf_lt_length.mpr hmem
  have hget : s.getD (find_blank_square s) 0 = 0 := by
    rw [List.getD_eq_getElem s 0 (h9 ▸ hlt)]
    exact List.getElem_indexOf (h9 ▸ hlt)
  exact ⟨hlt, hget, fun i hi hv =>
    count_one_unique_pos s h0 i (find_blank_square s) (h9 ▸ hi) (h9 ▸ hlt) hv hget⟩

/-- C5 amended: for every board that is a permutation of 0..8 and every legal
action, `result` swaps the blank with the adjacent tile one grid step away,
but in the direction *opposite* to the action's label (the label names the
direction the moved tile slides): 'U' puts the blank one row further down,
'D' one row further up, 'L' one column further right, 'R' one column further
left; every other position is unchanged. -/
theorem result_moves_blank_opposite_label (s : List Nat)
    (hperm : List.Perm s (List.range 9)) (a : Char) (ha : a ∈ EightPuzzle.actions s) :
    moveDest (find_blank_square s) a < 9 ∧
    moveDest (find_blank_square s) a ≠ find_blank_square s ∧
    ((a = 'D' → moveDest (find_blank_square s) a / 3 + 1 = find_blank_square s / 3 ∧
        moveDest (find_blank_square s) a % 3 = find_blank_square s % 3) ∧
      (a = 'U' → moveDest (find_blank_square s) a / 3 = find_blank_square s / 3 + 1 ∧
        moveDest (find_blank_square s) a % 3 = find_blank_square s % 3) ∧
      (a = 'R' → moveDest (find_blank_square s) a / 3 = find_blank_square s / 3 ∧
        moveDest (find_blank_square s) a % 3 + 1 = find_blank_square s % 3) ∧
      (a = 'L' → moveDest (find_blank_square s) a / 3 = find_blank_square s / 3 ∧
        moveDest (find_blank_square s) a % 3 = find_blank_square s % 3 + 1)) ∧
    (EightPuzzle.result s a).getD (find_blank_square s) 0 =
      s.getD (moveDest (find_blank_square s) a) 0 ∧
    (EightPuzzle.result s a).getD (moveDest (find_blank_square s) a) 0 = 0 ∧
    (∀ i, i < 9 → i ≠ find_blank_square s → i ≠ moveDest (find_blank_square s) a →
      (EightPuzzle.result s a).getD i 0 = s.getD i 0) := by
  obtain ⟨h9, hc1, hmem⟩ := perm_length_count s hperm
  obtain ⟨hb9, hbv, huniq⟩ := blank_spec s h9 hc1
  obtain ⟨hn9, hnb⟩ := moveDest_lt s a ha hb9
  have hres := result_eq_swap s a ha hb9
  have hbl : find_blank_square s < s.length := h9 ▸ hb9
  have hnl : moveDest (find_blank_square s) a <
      (s.set (find_blank_square s) (s.getD (moveDest (find_blank_square s) a) 0)).length := by
    rw [List.length_set, h9]
    exact hn9
  have hswap1 : (EightPuzzle.result s a).getD (find_blank_square s) 0 =
      s.getD (moveDest (find_blank_square s) a) 0 := by
    rw [hres, getD_set_ne _ _ _ _ _ hnb, getD_set_self _ _ _ _ hbl]
  have hswap2 : (EightPuzzle.result s a).getD (moveDest (find_blank_square s) a) 0 = 0 := by
    rw [hres, getD_set_self _ _ _ _ hnl]
    exact hbv
  have hswap3 : ∀ i, i < 9 → i ≠ find_blank_square s →
      i ≠ moveDest (find_blank_square s) a →
      (EightPuzzle.result s a).getD i 0 = s.getD i 0 := by
    intro i _ hib hin
    rw [hres, getD_set_ne _ _ _ _ _ (Ne.symm hin), getD_set_ne _ _ _ _ _ (Ne.symm hib)]
  rcases (mem_actions_iff s a hb9).mp ha with ⟨rfl, h⟩ | ⟨rfl, h⟩ | ⟨rfl, h⟩ | ⟨rfl, h⟩
  · exact ⟨hn9, hnb, ⟨fun _ => by rw [moveDest_D]; omega,
      fun hq => absurd hq (by decide), fun hq => absurd hq (by decide),
      fun hq => absurd hq (by decide)⟩, hswap1, hswap2, hswap3⟩
  · exact ⟨hn9, hnb, ⟨fun hq => absurd hq (by decide),
      fun _ => by rw [moveDest_U]; omega, fun hq => absurd hq (by decide),
      fun hq => absurd hq (by decide)⟩, hswap1, hswap2, hswap3⟩
  · exact ⟨hn9, hnb, ⟨fun hq => absurd hq (by decide),
      fun hq => absurd hq (by decide), fun _ => by rw [moveDest_R]; omega,
      fun hq => absurd hq (by decide)⟩, hswap1, hswap2, hswap3⟩
  · exact ⟨hn9, hnb, ⟨fun hq => absurd hq (by decide),
      fun hq => absurd hq (by decide), fun hq => absurd hq (by decide),
      fun _ => by rw [moveDest_L]; omega⟩, hswap1, hswap2, hswap3⟩

/-- Witness for the amended C5 at the board `(1,2,3,4,0,5,6,7,8)` and
action 'U'. -/
theorem result_moves_blank_opposite_label_witness :
    moveDest (find_blank_square [1, 2, 3, 4, 0, 5, 6, 7, 8]) 'U' < 9 ∧
    moveDest (find_blank_square [1, 2, 3, 4, 0, 5, 6, 7, 8]) 'U' ≠
      find_blank_square [1, 2, 3, 4, 0, 5, 6, 7, 8] ∧
    (('U' = 'D' → moveDest (find_blank_square [1, 2, 3, 4, 0, 5, 6, 7, 8]) 'U' / 3 + 1 =
        find_blank_square [1, 2, 3, 4, 0, 5, 6, 7, 8] / 3 ∧
        moveDest (find_blank_square [1, 2, 3, 4, 0, 5, 6, 7, 8]) 'U' % 3 =
        find_blank_square [1, 2, 3, 4, 0, 5, 6, 7, 8] % 3) ∧
      ('U' = 'U' → moveDest (find_blank_square [1, 2, 3, 4, 0, 5, 6, 7, 8]) 'U' / 3 =
        find_blank_square [1, 2, 3, 4, 0, 5, 6, 7, 8] / 3 + 1 ∧
        moveDest (find_blank_square [1, 2, 3, 4, 0, 5, 6, 7, 8]) 'U' % 3 =
        find_blank_square [1, 2, 3, 4, 0, 5, 6, 7, 8] % 3) ∧
      ('U' = 'R' → moveDest (find_blank_square [1, 2, 3, 4, 0, 5, 6, 7, 8]) 'U' / 3 =
        find_blank_square [1, 2, 3, 4, 0, 5, 6, 7, 8] / 3 ∧
        moveDest (find_blank_square [1, 2, 3, 4, 0, 5, 6, 7, 8]) 'U' % 3 + 1 =
        find_blank_square [1, 2, 3, 4, 0, 5, 6, 7, 8] % 3) ∧
      ('U' = 'L' → moveDest (find_blank_square [1, 2, 3, 4, 0, 5, 6, 7, 8]) 'U' / 3 =
        find_blank_square [1, 2, 3, 4, 0, 5, 6, 7, 8] / 3 ∧
        moveDest (find_blank_square [1, 2, 3, 4, 0, 5, 6, 7, 8]) 'U' % 3 =
        find_blank_square [1, 2, 3, 4, 0, 5, 6, 7, 8] % 3 + 1)) ∧
    (EightPuzzle.result [1, 2, 3, 4, 0, 5, 6, 7, 8] 'U').getD
        (find_blank_square [1, 2, 3, 4, 0, 5, 6, 7, 8]) 0 =
      ([1, 2, 3, 4, 0, 5, 6, 7, 8] : List Nat).getD
        (moveDest (find_blank_square [1, 2, 3, 4, 0, 5, 6, 7, 8]) 'U') 0 ∧
    (EightPuzzle.result [1, 2, 3, 4, 0, 5, 6, 7, 8] 'U').getD
        (moveDest (find_blank_square [1, 2, 3, 4, 0, 5, 6, 7, 8]) 'U') 0 = 0 ∧
    (∀ i, i < 9 → i ≠ find_blank_square [1, 2, 3, 4, 0, 5, 6, 7, 8] →
      i ≠ moveDest (find_blank_square [1, 2, 3, 4, 0, 5, 6, 7, 8]) 'U' →
      (EightPuzzle.result [1, 2, 3, 4, 0, 5, 6, 7, 8] 'U').getD i 0 =
        ([1, 2, 3, 4, 0, 5, 6, 7, 8] : List Nat).getD i 0) :=
  result_moves_blank_opposite_label [1, 2, 3, 4, 0, 5, 6, 7, 8] (by decide) 'U' (by decide)

/-! ### C10: `result` keeps boards valid. -/

/-- C10: applying a legal action to a permutation of 0..8 yields again a
length-9 permutation of 0..8 with exactly one blank, and the new board differs
from the old only by swapping two entries. -/
theorem result_preserves_board (s : List Nat) (hperm : List.Perm s (List.range 9))
    (a : Char) (ha : a ∈ EightPuzzle.actions s) :
    List.Perm (EightPuzzle.result s a) (List.range 9) ∧
    (EightPuzzle.result s a).length = 9 ∧
    (EightPuzzle.result s a).count 0 = 1 ∧
    ∃ i j, i < 9 ∧ j < 9 ∧ i ≠ j ∧
      (EightPuzzle.result s a).getD i 0 = s.getD j 0 ∧
      (EightPuzzle.result s a).getD j 0 = s.getD i 0 ∧
      ∀ k, k ≠ i → k ≠ j → (EightPuzzle.result s a).getD k 0 = s.getD k 0 := by
  obtain ⟨h9, hc1, hmem⟩ := perm_length_count s hperm
  obtain ⟨hb9, hbv, huniq⟩ := blank_spec s h9 hc1
  obtain ⟨hn9, hnb⟩ := moveDest_lt s a ha hb9
  have hres := result_eq_swap s a ha hb9
  have hbl : find_blank_square s < s.length := h9 ▸ hb9
  have hnl : moveDest (find_blank_square s) a < s.length := h9 ▸ hn9
  have hpermres : List.Perm (EightPuzzle.result s a) s := by
    rw [hres]
    exact set_set_swap_perm 0 s (find_blank_square s) (moveDest (find_blank_square s) a)
      hbl hnl
  have hpermrange : List.Perm (EightPuzzle.result s a) (List.range 9) :=
    hpermres.trans hperm
  have hlen : (EightPuzzle.result s a).length = 9 := by
    simpa using hpermrange.length_eq
  refine ⟨hpermrange, hlen, ?_, find_blank_square s, moveDest (find_blank_square s) a,
    hb9, hn9, Ne.symm hnb, ?_, ?_, ?_⟩
  · rw [hpermrange.count_eq]
    decide
  · rw [hres, getD_set_ne _ _ _ _ _ hnb, getD_set_self _ _ _ _ hbl]
  · rw [hres, getD_set_self]
    rw [List.length_set, h9]
    exact hn9
  · intro k hkb hkn
    by_cases hk : k < 9
    · rw [hres, getD_set_ne _ _ _ _ _ (Ne.symm hkn), getD_set_ne _ _ _ _ _ (Ne.symm hkb)]
    · rw [List.getD_eq_default _ _ (by omega : (EightPuzzle.result s a).length ≤ k),
        List.getD_eq_default _ _ (by omega : s.length ≤ k)]

/-- Witness for C10 at the board `(1,2,3,4,0,5,6,7,8)` and action 'U'. -/
theorem result_preserves_board_witness :
    List.Perm (EightPuzzle.result [1, 2, 3, 4, 0, 5, 6, 7, 8] 'U') (List.range 9) ∧
    (EightPuzzle.result [1, 2, 3, 4, 0, 5, 6, 7, 8] 'U').length = 9 ∧
    (EightPuzzle.result [1, 2, 3, 4, 0, 5, 6, 7, 8] 'U').count 0 = 1 ∧
    ∃ i j, i < 9 ∧ j < 9 ∧ i ≠ j ∧
      (EightPuzzle.result [1, 2, 3, 4, 0, 5, 6, 7, 8] 'U').getD i 0 =
        ([1, 2, 3, 4, 0, 5, 6, 7, 8] : List Nat).getD j 0 ∧
      (EightPuzzle.result [1, 2, 3, 4, 0, 5, 6, 7, 8] 'U').getD j 0 =
        ([1, 2, 3, 4, 0, 5, 6, 7, 8] : List Nat).getD i 0 ∧
      ∀ k, k ≠ i → k ≠ j →
        (EightPuzzle.result [1, 2, 3, 4, 0, 5, 6, 7, 8] 'U').getD k 0 =
          ([1, 2, 3, 4, 0, 5, 6, 7, 8] : List Nat).getD k 0 :=
  result_preserves_board [1, 2, 3, 4, 0, 5, 6, 7, 8] (by decide) 'U' (by decide)

/-! ### C4: by how much one move can change the H1 count. -/

/-- C4 fails as stated: from `(1,2,3,4,5,0,7,8,6)` the legal action 'U' swaps
the blank (index 5) with tile 6 (index 8) and produces the goal, taking the H1
count from 2 to 0 — a single move reduced the count of positions differing
from the goal by 2, because the count includes the blank's position and a move
changes two positions at once. -/
theorem h1_single_move_drops_two :
    'U' ∈ EightPuzzle.actions [1, 2, 3, 4, 5, 0, 7, 8, 6] ∧
    EightPuzzle.hState goalState [1, 2, 3, 4, 5, 0, 7, 8, 6] = 2 ∧
    EightPuzzle.hState goalState (EightPuzzle.result [1, 2, 3, 4, 5, 0, 7, 8, 6] 'U') = 0 ∧
    ¬ (2 : Nat) ≤ 0 + 1 := by
  decide

lemma result_perm_range (s : List Nat) (hperm : List.Perm s (List.range 9))
    (a : Char) (ha : a ∈ EightPuzzle.actions s) :
    List.Perm (EightPuzzle.result s a) (List.range 9) := by
  obtain ⟨h9, hc1, hmem⟩ := perm_length_count s hperm
  obtain ⟨hb9, hbv, huniq⟩ := blank_spec s h9 hc1
  obtain ⟨hn9, hnb⟩ := moveDest_lt s a ha hb9
  have hres := result_eq_swap s a ha hb9
  have hperm' : List.Perm (EightPuzzle.result s a) s := by
    rw [hres]
    exact set_set_swap_perm 0 s (find_blank_square s) (moveDest (find_blank_square s) a)
      (h9 ▸ hb9) (h9 ▸ hn9)
  exact hperm'.trans hperm

lemma countP_zip_eq_sum :
    ∀ (s g : List Nat), (s.zip g).countP (fun pr => pr.1 != pr.2) =
      ∑ i ∈ Finset.range (min s.length g.length),
        (if s.getD i 0 ≠ g.getD i 0 then 1 else 0)
  | [], g => by simp
  | x :: xs, [] => by simp
  | x :: xs, y :: ys => by
    have ih := countP_zip_eq_sum xs ys
    have hmin : min (x :: xs).length (y :: ys).length = min xs.length ys.length + 1 := by
      simp [Nat.succ_min_succ]
    rw [hmin, Finset.sum_range_succ']
    simp only [List.getD_cons_succ, List.getD_cons_zero]
    rw [List.zip_cons_cons, List.countP_cons, ih]
    by_cases hxy : x = y <;> simp [hxy]

lemma hState_eq_sum (goal s : List Nat) (hs : s.length = 9) (hg : goal.length = 9) :
    EightPuzzle.hState goal s =
      ∑ i ∈ Finset.range 9, (if s.getD i 0 ≠ goal.getD i 0 then 1 else 0) := by
  rw [EightPuzzle.hState, countP_zip_eq_sum, hs, hg, Nat.min_self]

/-- C4 amended: for every board that is a permutation of 0..8 and every legal
action, one move reduces the H1 misplaced count (which includes the blank's
position) by at most 2: `h(s) ≤ h(result(s,a)) + 2`.  (The claimed bound of 1
is the right one for the count of misplaced *tiles*, but this `h` also counts
the blank's cell, and a move changes exactly those two cells.) -/
theorem h1_decreases_at_most_two (s : List Nat) (hperm : List.Perm s (List.range 9))
    (a : Char) (ha : a ∈ EightPuzzle.actions s) :
    EightPuzzle.hState goalState s ≤
      EightPuzzle.hState goalState (EightPuzzle.result s a) + 2 := by
  obtain ⟨h9, hc1, hmem⟩ := perm_length_count s hperm
  obtain ⟨hb9, hbv, huniq⟩ := blank_spec s h9 hc1
  obtain ⟨hn9, hnb⟩ := moveDest_lt s a ha hb9
  have hres := result_eq_swap s a ha hb9
  have h9' : (EightPuzzle.result s a).length = 9 := by
    simpa using (result_perm_range s hperm a ha).length_eq
  have hgl : goalState.length = 9 := by decide
  rw [hState_eq_sum goalState s h9 hgl, hState_eq_sum goalState _ h9' hgl]
  set b := find_blank_square s with hbdef
  set n := moveDest (find_blank_square s) a with hndef
  have hBsub : ({b, n} : Finset ℕ) ⊆ Finset.range 9 := by
    intro x hx
    rcases Finset.mem_insert.mp hx with rfl | hx
    · exact Finset.mem_range.mpr hb9
    · rw [Finset.mem_singleton.mp hx]
      exact Finset.mem_range.mpr hn9
  have hsplit : (∑ i ∈ Finset.range 9 \ {b, n},
      (if s.getD i 0 ≠ goalState.getD i 0 then 1 else 0)) +
      ∑ i ∈ ({b, n} : Finset ℕ), (if s.getD i 0 ≠ goalState.getD i 0 then 1 else 0) =
      ∑ i ∈ Finset.range 9, (if s.getD i 0 ≠ goalState.getD i 0 then 1 else 0) :=
    Finset.sum_sdiff hBsub
  have hsame : ∑ i ∈ Finset.range 9 \ {b, n},
      (if s.getD i 0 ≠ goalState.getD i 0 then 1 else 0) =
      ∑ i ∈ Finset.range 9 \ {b, n},
      (if (EightPuzzle.result s a).getD i 0 ≠ goalState.getD i 0 then 1 else 0) := by
    refine Finset.sum_congr rfl fun i hi => ?_
    obtain ⟨hir, hiB⟩ := Finset.mem_sdiff.mp hi
    have hib : i ≠ b := fun h => hiB (by simp [h])
    have hin : i ≠ n := fun h => hiB (by simp [h])
    rw [hres, getD_set_ne _ _ _ _ _ (Ne.symm hin), getD_set_ne _ _ _ _ _ (Ne.symm hib)]
  have hBbound : ∑ i ∈ ({b, n} : Finset ℕ),
      (if s.getD i 0 ≠ goalState.getD i 0 then 1 else 0) ≤ 2 := by
    have hle := Finset.sum_le_card_nsmul ({b, n} : Finset ℕ)
      (fun i => if s.getD i 0 ≠ goalState.getD i 0 then 1 else 0) 1
      (fun i _ => by dsimp only; split <;> omega)
    have hcard : ({b, n} : Finset ℕ).card ≤ 2 :=
      le_trans (Finset.card_insert_le _ _) (by simp)
    calc ∑ i ∈ ({b, n} : Finset ℕ),
        (if s.getD i 0 ≠ goalState.getD i 0 then 1 else 0)
        ≤ ({b, n} : Finset ℕ).card • 1 := hle
      _ = ({b, n} : Finset ℕ).card := by simp
      _ ≤ 2 := hcard
  have hmono : ∑ i ∈ Finset.range 9 \ {b, n},
      (if (EightPuzzle.result s a).getD i 0 ≠ goalState.getD i 0 then 1 else 0) ≤
      ∑ i ∈ Finset.range 9,
      (if (EightPuzzle.result s a).getD i 0 ≠ goalState.getD i 0 then 1 else 0) :=
    Finset.sum_le_sum_of_subset (Finset.sdiff_subset)
  omega

/-- Witness for the amended C4 at the board `(1,2,3,4,5,0,7,8,6)` and
action 'U'. -/
theorem h1_decreases_at_most_two_witness :
    EightPuzzle.hState goalState [1, 2, 3, 4, 5, 0, 7, 8, 6] ≤
      EightPuzzle.hState goalState
        (EightPuzzle.result [1, 2, 3, 4, 5, 0, 7, 8, 6] 'U') + 2 :=
  h1_decreases_at_most_two [1, 2, 3, 4, 5, 0, 7, 8, 6] (by decide) 'U' (by decide)

/-! ### C7: the decrease-key discipline of the priority frontier. -/

lemma mem_pqStates_of_lookup {σ α : Type} [DecidableEq σ] :
    ∀ (q : List (Nat × SNode σ α)) (s : σ) (v : Nat),
      pqLookup q s = some v → s ∈ pqStates q
  | [], s, v, h => by simp [pqLookup] at h
  | e :: rest, s, v, h => by
    by_cases hes : e.2.state = s
    · simp [pqStates, hes]
    · rw [pqLookup, if_neg hes] at h
      simp only [pqStates, List.map_cons, List.mem_cons]
      exact Or.inr (mem_pqStates_of_lookup rest s v h)

lemma countP_pqRemove_zero {σ α : Type} [DecidableEq σ] :
    ∀ (q : List (Nat × SNode σ α)) (s : σ),
      q.countP (fun e => decide (e.2.state = s)) = 1 →
      (pqRemove q s).countP (fun e => decide (e.2.state = s)) = 0
  | [], s, h => by simp [pqRemove]
  | e :: rest, s, h => by
    rw [List.countP_cons] at h
    by_cases hes : e.2.state = s
    · rw [pqRemove, if_pos hes]
      have hite : (if (decide (e.2.state = s)) = true then 1 else 0) = 1 := by simp [hes]
      rw [hite] at h
      omega
    · rw [pqRemove, if_neg hes, List.countP_cons]
      have hite : (if (decide (e.2.state = s)) = true then 1 else 0) = 0 := by simp [hes]
      rw [hite] at h ⊢
      have := countP_pqRemove_zero rest s (by omega)
      omega

lemma pqLookup_append {σ α : Type} [DecidableEq σ] :
    ∀ (q1 q2 : List (Nat × SNode σ α)) (s : σ),
      pqLookup (q1 ++ q2) s =
        match pqLookup q1 s with
        | some v => some v
        | none => pqLookup q2 s
  | [], q2, s => by simp [pqLookup]
  | e :: rest, q2, s => by
    by_cases hes : e.2.state = s
    · simp [pqLookup, hes]
    · rw [List.cons_append, pqLookup, if_neg hes, pqLookup, if_neg hes]
      exact pqLookup_append rest q2 s

lemma pqLookup_none_of_countP_zero {σ α : Type} [DecidableEq σ] :
    ∀ (q : List (Nat × SNode σ α)) (s : σ),
      q.countP (fun e => decide (e.2.state = s)) = 0 → pqLookup q s = none
  | [], s, _ => rfl
  | e :: rest, s, h => by
    rw [List.countP_cons] at h
    by_cases hes : e.2.state = s
    · simp [hes] at h
    · rw [pqLookup, if_neg hes]
      simp only [hes, decide_eq_false hes] at h
      exact pqLookup_none_of_countP_zero rest s (by omega)

/-- C7: when a generated child's state already has (exactly one) entry in the
priority frontier with stored value `fOld`, processing the child leaves
exactly one entry for that state; the child replaces the entry exactly when
its `f` is strictly smaller, so the surviving entry carries
`min (f child) fOld`; otherwise the frontier is unchanged and the child is
discarded. -/
theorem bestFirstStep_replaces_iff_strictly_better {σ α : Type} [DecidableEq σ]
    (f : SNode σ α → Nat) (explored : List σ) (q : List (Nat × SNode σ α))
    (c : SNode σ α) (fOld : Nat)
    (hone : q.countP (fun e => decide (e.2.state = c.state)) = 1)
    (hlook : pqLookup q c.state = some fOld) :
    (bestFirstStep f explored q c).countP (fun e => decide (e.2.state = c.state)) = 1 ∧
    pqLookup (bestFirstStep f explored q c) c.state =
      some (if f c < fOld then f c else fOld) ∧
    (f c < fOld → bestFirstStep f explored q c = pqRemove q c.state ++ [(f c, c)]) ∧
    (¬ f c < fOld → bestFirstStep f explored q c = q) := by
  have hmem : c.state ∈ pqStates q := mem_pqStates_of_lookup q c.state fOld hlook
  have hstep : bestFirstStep f explored q c =
      if f c < fOld then pqRemove q c.state ++ [(f c, c)] else q := by
    rw [bestFirstStep, if_neg (by simp [hmem]), if_pos hmem, hlook]
  by_cases hlt : f c < fOld
  · rw [hstep, if_pos hlt]
    have hzero := countP_pqRemove_zero q c.state hone
    refine ⟨?_, ?_, fun _ => rfl, fun h => absurd hlt h⟩
    · rw [List.countP_append, hzero]
      simp [List.countP_cons]
    · rw [pqLookup_append, pqLookup_none_of_countP_zero _ _ hzero]
      simp [pqLookup, if_pos hlt]
  · rw [hstep, if_neg hlt]
    exact ⟨hone, by rw [hlook, if_neg hlt], fun h => absurd h hlt, fun _ => rfl⟩

/-- Witness for C7: a frontier holding state `[1]` with f-value 5 and a newly
generated child for the same state with f-value 3 (its path cost). -/
theorem bestFirstStep_replaces_iff_strictly_better_witness :
    (bestFirstStep SNode.path_cost ([] : List (List Nat))
        [(5, SNode.root [1])] (SNode.child [1] 'U' 3 (SNode.root [2]))).countP
      (fun e => decide (e.2.state = (SNode.child ([1] : List Nat) 'U' 3 (SNode.root [2])).state)) = 1 ∧
    pqLookup (bestFirstStep SNode.path_cost ([] : List (List Nat))
        [(5, SNode.root [1])] (SNode.child [1] 'U' 3 (SNode.root [2])))
      (SNode.child ([1] : List Nat) 'U' 3 (SNode.root [2])).state =
      some (if SNode.path_cost (SNode.child ([1] : List Nat) 'U' 3 (SNode.root [2])) < 5
        then SNode.path_cost (SNode.child ([1] : List Nat) 'U' 3 (SNode.root [2])) else 5) ∧
    (SNode.path_cost (SNode.child ([1] : List Nat) 'U' 3 (SNode.root [2])) < 5 →
      bestFirstStep SNode.path_cost ([] : List (List Nat))
        [(5, SNode.root [1])] (SNode.child [1] 'U' 3 (SNode.root [2])) =
        pqRemove [(5, SNode.root [1])]
          (SNode.child ([1] : List Nat) 'U' 3 (SNode.root [2])).state ++
          [(SNode.path_cost (SNode.child ([1] : List Nat) 'U' 3 (SNode.root [2])),
            SNode.child [1] 'U' 3 (SNode.root [2]))]) ∧
    (¬ SNode.path_cost (SNode.child ([1] : List Nat) 'U' 3 (SNode.root [2])) < 5 →
      bestFirstStep SNode.path_cost ([] : List (List Nat))
        [(5, SNode.root [1])] (SNode.child [1] 'U' 3 (SNode.root [2])) =
        [(5, SNode.root [1])]) :=
  bestFirstStep_replaces_iff_strictly_better SNode.path_cost []
    [(5, SNode.root [1])] (SNode.child [1] 'U' 3 (SNode.root [2])) 5
    (by decide) (by decide)

/-! ### C8: a goal initial state is returned at once, unexpanded. -/

/-- C8: for every problem whose initial state passes the goal test, each of
`breadth_first_graph_search` (any fuel), `best_first_graph_search` (any `f`,
any positive fuel) and `depth_limited_search` (any limit, including 0) returns
the root node itself — a node of depth 0, i.e. produced without expanding any
node — whose `solution()` is the empty action sequence. -/
theorem goal_initial_returns_empty_solution {σ α : Type} [DecidableEq σ]
    (p : SProblem σ α) (f : SNode σ α → Nat) (fuel fuel' limit : Nat)
    (hgoal : p.goal_test p.initial = true) :
    breadth_first_graph_search p fuel = some (SNode.root p.initial) ∧
    best_first_graph_search p f (fuel' + 1) = some (SNode.root p.initial) ∧
    depth_limited_search p limit = DLSResult.found (SNode.root p.initial) ∧
    (SNode.root p.initial : SNode σ α).solution = [] ∧
    (SNode.root p.initial : SNode σ α).depth = 0 := by
  refine ⟨?_, ?_, ?_, rfl, rfl⟩
  · rw [breadth_first_graph_search, if_pos hgoal]
  · rw [best_first_graph_search, bestFirstLoop]
    simp only [pqPop]
    rw [if_pos (show p.goal_test (SNode.root p.initial).state = true from hgoal)]
  · rw [depth_limited_search, recursive_dls.eq_def,
      if_pos (show p.goal_test (SNode.root p.initial).state = true from hgoal)]

/-- Witness for C8: the 8-puzzle problem whose initial state is the goal. -/
theorem goal_initial_returns_empty_solution_witness :
    breadth_first_graph_search (eightPuzzle goalState goalState) 0 =
      some (SNode.root goalState) ∧
    best_first_graph_search (eightPuzzle goalState goalState)
      (EightPuzzle.h goalState) (0 + 1) = some (SNode.root goalState) ∧
    depth_limited_search (eightPuzzle goalState goalState) 0 =
      DLSResult.found (SNode.root goalState) ∧
    (SNode.root goalState : SNode (List Nat) Char).solution = [] ∧
    (SNode.root goalState : SNode (List Nat) Char).depth = 0 :=
  goal_initial_returns_empty_solution (eightPuzzle goalState goalState)
    (EightPuzzle.h goalState) 0 0 0 (by decide)

/-! ### Valid action sequences. -/

lemma validSeq_append {σ α : Type} [DecidableEq α] (p : SProblem σ α) :
    ∀ (u v : List α) (s : σ), validSeq p s (u ++ v) =
      (validSeq p s u && validSeq p (replay p s u) v)
  | [], v, s => by simp [validSeq, replay]
  | a :: u, v, s => by
    by_cases ha : a ∈ p.actions s
    · rw [List.cons_append, validSeq, if_pos ha, validSeq, if_pos ha, replay]
      exact validSeq_append p u v (p.result s a)
    · rw [List.cons_append, validSeq, if_neg ha, validSeq, if_neg ha]
      simp

lemma replay_append {σ α : Type} (p : SProblem σ α) :
    ∀ (u v : List α) (s : σ), replay p s (u ++ v) = replay p (replay p s u) v
  | [], v, s => by simp [replay]
  | a :: u, v, s => by
    rw [List.cons_append, replay, replay]
    exact replay_append p u v (p.result s a)

/-! ### C6: depth-limited search below the optimal depth. -/

lemma actions_nonempty (s : List Nat) (hperm : List.Perm s (List.range 9)) :
    EightPuzzle.actions s ≠ [] := by
  obtain ⟨h9, hc1, hmem⟩ := perm_length_count s hperm
  obtain ⟨hb9, -, -⟩ := blank_spec s h9 hc1
  intro hempty
  by_cases h3 : 3 ≤ find_blank_square s
  · have : 'D' ∈ EightPuzzle.actions s := (mem_actions_iff s 'D' hb9).mpr (Or.inl ⟨rfl, h3⟩)
    rw [hempty] at this
    cases this
  · have : 'U' ∈ EightPuzzle.actions s :=
      (mem_actions_iff s 'U' hb9).mpr (Or.inr (Or.inl ⟨rfl, by omega⟩))
    rw [hempty] at this
    cases this

lemma dlsGo_all_cutoff {σ α : Type} (rec : SNode σ α → DLSResult σ α) :
    ∀ (cs : List (SNode σ α)) (flag : Bool), (cs ≠ [] ∨ flag = true) →
      (∀ c ∈ cs, rec c = DLSResult.cutoff) → dlsGo rec cs flag = DLSResult.cutoff
  | [], flag, hne, _ => by
    rcases hne with h | h
    · exact absurd rfl h
    · rw [dlsGo, if_pos h]
  | c :: cs, flag, _, hall => by
    rw [dlsGo, hall c (by simp)]
    exact dlsGo_all_cutoff rec cs true (Or.inr rfl) fun c' hc' => hall c' (by simp [hc'])

lemma dlsGo_found {σ α : Type} (rec : SNode σ α → DLSResult σ α)
    (P : SNode σ α → Prop) (hrec : ∀ c r, rec c = DLSResult.found r → P r) :
    ∀ (cs : List (SNode σ α)) (flag : Bool) (n : SNode σ α),
      dlsGo rec cs flag = DLSResult.found n → P n
  | [], flag, n, h => by
    rw [dlsGo] at h
    split at h <;> cases h
  | c :: cs, flag, n, h => by
    rw [dlsGo] at h
    split at h
    · exact dlsGo_found rec P hrec cs true n h
    · cases h
      exact hrec c n (by assumption)
    · exact dlsGo_found rec P hrec cs flag n h

lemma recursive_dls_found_goal {σ α : Type} (p : SProblem σ α) :
    ∀ (limit : Nat) (nd n : SNode σ α),
      recursive_dls p limit nd = DLSResult.found n → p.goal_test n.state = true
  | limit, nd, n, h => by
    rw [recursive_dls.eq_def] at h
    by_cases hg : p.goal_test nd.state = true
    · rw [if_pos hg] at h
      cases h
      exact hg
    · rw [if_neg hg] at h
      match limit, h with
      | 0, h => cases h
      | l + 1, h =>
        exact dlsGo_found (fun c => recursive_dls p l c) _
          (fun c r hc => recursive_dls_found_goal p l c r hc) (SNode.expand p nd) false n h

lemma recursive_dls_cutoff (s0 : List Nat) (L : Nat)
    (hmin : ∀ w, validSeq (eightPuzzle s0 goalState) s0 w = true →
      replay (eightPuzzle s0 goalState) s0 w = goalState → L ≤ w.length) :
    ∀ (limit : Nat) (nd : SNode (List Nat) Char) (w : List Char),
      validSeq (eightPuzzle s0 goalState) s0 w = true →
      replay (eightPuzzle s0 goalState) s0 w = nd.state →
      List.Perm nd.state (List.range 9) →
      limit + w.length < L →
      recursive_dls (eightPuzzle s0 goalState) limit nd = DLSResult.cutoff := by
  intro limit
  induction limit with
  | zero =>
    intro nd w hv hr hperm hlt
    rw [recursive_dls.eq_def]
    have hng : (eightPuzzle s0 goalState).goal_test nd.state = false := by
      by_contra hg
      have hg' : nd.state = goalState := by
        have := eq_of_beq (show (nd.state == goalState) = true by
          revert hg
          simp [eightPuzzle, EightPuzzle.goal_test])
        exact this
      have := hmin w hv (hr.trans hg')
      omega
    rw [hng]
    simp
  | succ l ih =>
    intro nd w hv hr hperm hlt
    rw [recursive_dls.eq_def]
    have hng : (eightPuzzle s0 goalState).goal_test nd.state = false := by
      by_contra hg
      have hg' : nd.state = goalState := by
        have := eq_of_beq (show (nd.state == goalState) = true by
          revert hg
          simp [eightPuzzle, EightPuzzle.goal_test])
        exact this
      have := hmin w hv (hr.trans hg')
      omega
    rw [hng]
    simp only [Bool.false_eq_true, if_false]
    refine dlsGo_all_cutoff _ _ _ (Or.inl ?_) ?_
    · have hne := actions_nonempty nd.state hperm
      simp [SNode.expand]
      intro habs
      exact hne habs
    · intro c hc
      simp only [SNode.expand, List.mem_map] at hc
      obtain ⟨a, hamem, rfl⟩ := hc
      refine ih _ (w ++ [a]) ?_ ?_ ?_ ?_
      · rw [validSeq_append, hv, Bool.true_and, hr]
        rw [validSeq, if_pos ?_]
        · rfl
        · exact hamem
      · rw [replay_append, hr]
        rfl
      · exact result_perm_range nd.state hperm a hamem
      · simp only [List.length_append, List.length_cons, List.length_nil]
        omega

/-- C6: `depth_limited_search` has exactly the three outcomes of its result
type, and a `found` outcome always carries a node passing the goal test; and
for every solvable board whose shortest solution has length `L`, any limit
strictly below `L` yields the cutoff sentinel, not failure. -/
theorem depth_limited_search_cutoff_below_optimum (s0 : List Nat)
    (hperm : List.Perm s0 (List.range 9)) (L limit : Nat) (w0 : List Char)
    (hw0v : validSeq (eightPuzzle s0 goalState) s0 w0 = true)
    (hw0r : replay (eightPuzzle s0 goalState) s0 w0 = goalState)
    (hw0l : w0.length = L)
    (hmin : ∀ w, validSeq (eightPuzzle s0 goalState) s0 w = true →
      replay (eightPuzzle s0 goalState) s0 w = goalState → L ≤ w.length)
    (hlim : limit < L) :
    (∀ (σ α : Type) (p : SProblem σ α) (lim : Nat) (n : SNode σ α),
      depth_limited_search p lim = DLSResult.found n → p.goal_test n.state = true) ∧
    depth_limited_search (eightPuzzle s0 goalState) limit = DLSResult.cutoff := by
  refine ⟨fun σ α p lim n h => recursive_dls_found_goal p lim _ n h, ?_⟩
  exact recursive_dls_cutoff s0 L hmin limit (SNode.root s0) [] (by rfl) (by rfl)
    (by exact hperm) (by simpa using hlim)

/-- Witness for C6: the board `(1,2,3,4,5,6,7,0,8)` is one move ('L') from the
goal, so its shortest solution length is 1, and limit 0 yields cutoff. -/
theorem depth_limited_search_cutoff_below_optimum_witness :
    (∀ (σ α : Type) (p : SProblem σ α) (lim : Nat) (n : SNode σ α),
      depth_limited_search p lim = DLSResult.found n → p.goal_test n.state = true) ∧
    depth_limited_search (eightPuzzle [1, 2, 3, 4, 5, 6, 7, 0, 8] goalState) 0 =
      DLSResult.cutoff := by
  refine depth_limited_search_cutoff_below_optimum [1, 2, 3, 4, 5, 6, 7, 0, 8]
    (by decide) 1 0 ['L'] (by decide) (by decide) (by decide) ?_ (by decide)
  intro w hv hr
  match w with
  | [] =>
    exfalso
    rw [replay] at hr
    exact absurd hr (by decide)
  | a :: w' => simp

/-! ### C1 part 1: breadth-first graph search returns shortest solutions. -/

lemma statesOf_append {σ α : Type} (l1 l2 : List (SNode σ α)) :
    statesOf (l1 ++ l2) = statesOf l1 ++ statesOf l2 := by
  simp [statesOf]

lemma mem_statesOf {σ α : Type} {s : σ} {l : List (SNode σ α)} :
    s ∈ statesOf l ↔ ∃ n ∈ l, SNode.state n = s := by
  simp [statesOf]

lemma NodePath_root {σ α : Type} [DecidableEq α] (p : SProblem σ α) (s0 : σ) :
    NodePath p s0 (SNode.root s0) := ⟨rfl, rfl, rfl⟩

lemma NodePath_child {σ α : Type} [DecidableEq α] (p : SProblem σ α) (s0 : σ)
    (nd : SNode σ α) (hnd : NodePath p s0 nd) (a : α) (ha : a ∈ p.actions nd.state)
    (cost : Nat) :
    NodePath p s0 (SNode.child (p.result nd.state a) a cost nd) := by
  obtain ⟨hv, hr, hl⟩ := hnd
  refine ⟨?_, ?_, ?_⟩
  · show validSeq p s0 (nd.solution ++ [a]) = true
    rw [validSeq_append, hv, Bool.true_and, hr, validSeq, if_pos ha]
    rfl
  · show replay p s0 (nd.solution ++ [a]) = p.result nd.state a
    rw [replay_append, hr]
    rfl
  · show (nd.solution ++ [a]).length = nd.depth + 1
    simp [hl]

lemma mem_expand {σ α : Type} {p : SProblem σ α} {nd c : SNode σ α} :
    c ∈ SNode.expand p nd ↔ ∃ a ∈ p.actions nd.state,
      c = SNode.child (p.result nd.state a) a
        (p.path_cost nd.path_cost nd.state a (p.result nd.state a)) nd := by
  simp only [SNode.expand, List.mem_map]
  constructor
  · rintro ⟨a, ha, rfl⟩
    exact ⟨a, ha, rfl⟩
  · rintro ⟨a, ha, rfl⟩
    exact ⟨a, ha, rfl⟩

lemma Reach_mono {σ α : Type} [DecidableEq α] {p : SProblem σ α} {s0 t : σ}
    {m m' : Nat} (h : Reach p s0 t m) (hm : m ≤ m') : Reach p s0 t m' := by
  obtain ⟨w, hv, hr, hl⟩ := h
  exact ⟨w, hv, hr, le_trans hl hm⟩

lemma head_depth_min {σ α : Type} {node : SNode σ α} {rest : List (SNode σ α)}
    (hs : (node :: rest).Pairwise (fun a b => SNode.depth a ≤ SNode.depth b)) :
    ∀ n ∈ node :: rest, node.depth ≤ n.depth := by
  intro n hn
  rcases List.mem_cons.mp hn with rfl | hn
  · exact le_refl _
  · exact (List.pairwise_cons.mp hs).1 n hn

/-- Any state reachable within the head's depth is already in the explored set
or in the frontier. -/
lemma inv_reach_mem {σ α : Type} [DecidableEq σ] [DecidableEq α] {p : SProblem σ α}
    {s0 : σ} {node : SNode σ α} {rest : List (SNode σ α)} {E : List σ}
    (hInv : BFSInv p s0 (node :: rest) E) :
    ∀ t m, Reach p s0 t m → m ≤ node.depth → t ∈ E ∨ t ∈ statesOf (node :: rest) := by
  intro t m hr hm
  obtain ⟨w, hwv, hwr, hwl⟩ := hr
  rcases Nat.lt_or_ge w.length node.depth with hlt | hge
  · left
    exact hInv.exploredLT t w.length ⟨w, hwv, hwr, le_refl _⟩
      (fun n hn => lt_of_lt_of_le hlt (head_depth_min hInv.sorted n hn))
  · have hweq : w.length = node.depth := le_antisymm (le_trans hwl hm) hge
    rcases List.eq_nil_or_concat w with rfl | ⟨u, a, rfl⟩
    · -- the empty path: t = s0
      rw [replay] at hwr
      subst hwr
      rcases hInv.rootIn with h | h
      · exact Or.inl h
      · exact Or.inr h
    · -- split off the last action
      simp only [List.concat_eq_append] at hwv hwr hwl hweq
      rw [validSeq_append] at hwv
      obtain ⟨huv, hlast⟩ := Bool.and_eq_true_iff.mp hwv
      have hmem : a ∈ p.actions (replay p s0 u) := by
        by_contra hnot
        rw [validSeq, if_neg hnot] at hlast
        cases hlast
      have hprev : replay p s0 u ∈ E := by
        refine hInv.exploredLT (replay p s0 u) u.length ⟨u, huv, rfl, le_refl _⟩
          fun n hn => ?_
        have h1 : u.length + 1 = node.depth := by
          simpa using hweq
        have := head_depth_min hInv.sorted n hn
        omega
      have := hInv.closure (replay p s0 u) hprev a hmem
      have hrepl : p.result (replay p s0 u) a = t := by
        rw [← hwr, replay_append, replay, replay]
      rw [hrepl] at this
      exact this

/-- Any valid action sequence that reaches a goal state is longer than the
depth of the frontier's head. -/
lemma inv_goal_min {σ α : Type} [DecidableEq σ] [DecidableEq α] {p : SProblem σ α}
    {s0 : σ} {node : SNode σ α} {rest : List (SNode σ α)} {E : List σ}
    (hInv : BFSInv p s0 (node :: rest) E) :
    ∀ w, validSeq p s0 w = true → p.goal_test (replay p s0 w) = true →
      node.depth + 1 ≤ w.length := by
  intro w hv hg
  by_contra hnot
  have hle : w.length ≤ node.depth := by omega
  rcases inv_reach_mem hInv (replay p s0 w) w.length ⟨w, hv, rfl, le_refl _⟩ hle with h | h
  · rw [hInv.nongoalE _ h] at hg
    cases hg
  · obtain ⟨n, hn, hns⟩ := mem_statesOf.mp h
    rw [← hns, hInv.nongoalQ n hn] at hg
    cases hg

lemma closed_reach {σ α : Type} [DecidableEq α] {p : SProblem σ α} {E : List σ}
    (hE : ∀ s ∈ E, ∀ a ∈ p.actions s, p.result s a ∈ E) :
    ∀ (w : List α) (s : σ), s ∈ E → validSeq p s w = true → replay p s w ∈ E
  | [], s, hs, _ => hs
  | a :: w, s, hs, hv => by
    by_cases ha : a ∈ p.actions s
    · rw [validSeq, if_pos ha] at hv
      rw [replay]
      exact closed_reach hE w (p.result s a) (hE s hs a ha) hv
    · rw [validSeq, if_neg ha] at hv
      cases hv

lemma bool_eq_false {b : Bool} (h : ¬ b = true) : b = false := by
  cases b
  · rfl
  · exact absurd rfl h

lemma bfsProcess_spec {σ α : Type} [DecidableEq σ] [DecidableEq α] (p : SProblem σ α)
    (s0 : σ) (node : SNode σ α) (rest : List (SNode σ α)) (E : List σ)
    (hInv : BFSInv p s0 (node :: rest) E) :
    ∀ (cs front : List (SNode σ α)),
      (∀ n ∈ front, NodePath p s0 n) →
      front.Pairwise (fun a b => SNode.depth a ≤ SNode.depth b) →
      (∀ n ∈ front, node.depth ≤ n.depth ∧ n.depth ≤ node.depth + 1) →
      (∀ n ∈ front, ∀ m, Reach p s0 n.state m → n.depth ≤ m) →
      (statesOf front).Nodup →
      (∀ s ∈ statesOf front, s ∉ node.state :: E) →
      (∀ n ∈ front, p.goal_test n.state = false) →
      (∀ s ∈ statesOf rest, s ∈ statesOf front) →
      (∀ c ∈ cs, ∃ a ∈ p.actions node.state,
        c = SNode.child (p.result node.state a) a
          (p.path_cost node.path_cost node.state a (p.result node.state a)) node) →
      (∀ a ∈ p.actions node.state,
        SNode.child (p.result node.state a) a
          (p.path_cost node.path_cost node.state a (p.result node.state a)) node ∈ cs ∨
        p.result node.state a ∈ node.state :: E ∨
        p.result node.state a ∈ statesOf front) →
      (s0 ∈ node.state :: E ∨ s0 ∈ statesOf front) →
      (∀ c, bfsProcess p (node.state :: E) front cs = Sum.inl c →
        p.goal_test c.state = true ∧ NodePath p s0 c ∧
          ∀ w, validSeq p s0 w = true → p.goal_test (replay p s0 w) = true →
            c.solution.length ≤ w.length) ∧
      (∀ front', bfsProcess p (node.state :: E) front cs = Sum.inr front' →
        BFSInv p s0 front' (node.state :: E))
  | [], front => by
    intro hfpaths hfsorted hfdepths hfopt hfnodup hfdisj hfnongoal hrest hcs hcover hroot
    refine ⟨fun c hc => ?_, fun front' hf => ?_⟩
    case refine_1 =>
      simp only [bfsProcess] at hc
      cases hc
    simp only [bfsProcess] at hf
    cases hf
    have hndmem : node ∈ node :: rest := List.mem_cons_self _ _
    have hnsmem : node.state ∈ statesOf (node :: rest) :=
      mem_statesOf.mpr ⟨node, hndmem, rfl⟩
    refine ⟨hfpaths, hfsorted, ?_, hfopt, ?_, ?_, hfnongoal, ?_, hfnodup, hfdisj, ?_, hroot⟩
    · -- twoLevels
      intro n hn m hm
      have h1 := hfdepths n hn
      have h2 := hfdepths m hm
      omega
    · -- exploredLT
      intro t m hr hall
      rcases le_or_lt m node.depth with hm | hm
      · rcases inv_reach_mem hInv t m hr hm with h | h
        · exact List.mem_cons_of_mem _ h
        · rcases mem_statesOf.mp h with ⟨n, hn, hns⟩
          rcases List.mem_cons.mp hn with rfl | hn'
          · exact hns ▸ List.mem_cons_self _ _
          · have hnf : t ∈ statesOf front := hrest t (mem_statesOf.mpr ⟨n, hn', hns⟩)
            rcases mem_statesOf.mp hnf with ⟨n2, hn2, hn2s⟩
            have h3 := hfopt n2 hn2 m (hn2s.symm ▸ hr)
            have h4 := hall n2 hn2
            omega
      · -- m exceeds the head's depth: the frontier must be empty and the
        -- explored set closed, so every reachable state is explored
        have hfe : front = [] := by
          rcases front with _ | ⟨n, front'⟩
          · rfl
          · exfalso
            have h1 := hall n (List.mem_cons_self _ _)
            have h2 := hfdepths n (List.mem_cons_self _ _)
            omega
        subst hfe
        have hre : rest = [] := by
          rcases rest with _ | ⟨n, rest'⟩
          · rfl
          · exfalso
            exact absurd (hrest n.state (mem_statesOf.mpr ⟨n, List.mem_cons_self _ _, rfl⟩))
              (by simp [statesOf])
        subst hre
        have hclosed : ∀ s ∈ node.state :: E, ∀ a ∈ p.actions s,
            p.result s a ∈ node.state :: E := by
          intro s hs a ha
          rcases List.mem_cons.mp hs with rfl | hs'
          · rcases hcover a ha with h | h | h
            · cases h
            · exact h
            · simp [statesOf] at h
          · rcases hInv.closure s hs' a ha with h | h
            · exact List.mem_cons_of_mem _ h
            · simp only [statesOf, List.map_cons, List.map_nil] at h
              rcases List.mem_cons.mp h with h' | h'
              · exact h' ▸ List.mem_cons_self _ _
              · cases h'
        have hs0 : s0 ∈ node.state :: E := by
          rcases hroot with h | h
          · exact h
          · simp [statesOf] at h
        obtain ⟨w, hwv, hwr, _⟩ := hr
        exact hwr ▸ closed_reach hclosed w s0 hs0 hwv
    · -- closure
      intro s hs a ha
      rcases List.mem_cons.mp hs with rfl | hs'
      · rcases hcover a ha with h | h | h
        · cases h
        · exact Or.inl h
        · exact Or.inr h
      · rcases hInv.closure s hs' a ha with h | h
        · exact Or.inl (List.mem_cons_of_mem _ h)
        · simp only [statesOf, List.map_cons] at h
          rcases List.mem_cons.mp h with h' | h'
          · exact Or.inl (h' ▸ List.mem_cons_self _ _)
          · exact Or.inr (hrest _ h')
    · -- nongoalE
      intro s hs
      rcases List.mem_cons.mp hs with rfl | hs'
      · exact hInv.nongoalQ node hndmem
      · exact hInv.nongoalE s hs'
    · -- nodupE
      refine List.nodup_cons.mpr ⟨?_, hInv.nodupE⟩
      exact hInv.disjQE node.state hnsmem
  | c :: cs, front => by
    intro hfpaths hfsorted hfdepths hfopt hfnodup hfdisj hfnongoal hrest hcs hcover hroot
    obtain ⟨a, ha, hceq⟩ := hcs c (List.mem_cons_self _ _)
    have hcstate : c.state = p.result node.state a := by rw [hceq]; rfl
    have hcdepth : c.depth = node.depth + 1 := by rw [hceq]; rfl
    have hcpath : NodePath p s0 c := by
      rw [hceq]
      exact NodePath_child p s0 node (hInv.paths node (List.mem_cons_self _ _)) a ha _
    by_cases hguard : c.state ∉ (node.state :: E) ∧ c.state ∉ statesOf front
    · simp only [bfsProcess]
      rw [if_pos hguard]
      obtain ⟨hcE, hcF⟩ := hguard
      have hcopt : ∀ m, Reach p s0 c.state m → c.depth ≤ m := by
        intro m hr
        by_contra hnot
        have hm : m ≤ node.depth := by omega
        rcases inv_reach_mem hInv c.state m hr hm with h | h
        · exact hcE (List.mem_cons_of_mem _ h)
        · rcases mem_statesOf.mp h with ⟨n, hn, hns⟩
          rcases List.mem_cons.mp hn with rfl | hn'
          · exact hcE (hns ▸ List.mem_cons_self _ _)
          · exact hcF (hrest c.state (mem_statesOf.mpr ⟨n, hn', hns⟩))
      by_cases hg : p.goal_test c.state = true
      · rw [if_pos hg]
        refine ⟨fun c' hc' => ?_, fun front' hf' => (by cases hf')⟩
        cases hc'
        refine ⟨hg, hcpath, fun w hwv hwg => ?_⟩
        have hmin := inv_goal_min hInv w hwv hwg
        have hlen : c.solution.length = c.depth := hcpath.2.2
        omega
      · rw [if_neg hg]
        have hcgf : p.goal_test c.state = false := bool_eq_false hg
        refine bfsProcess_spec p s0 node rest E hInv cs (front ++ [c]) ?_ ?_ ?_ ?_ ?_ ?_ ?_ ?_ ?_ ?_ ?_
        · intro n hn
          rcases List.mem_append.mp hn with h | h
          · exact hfpaths n h
          · rw [List.mem_singleton.mp h]
            exact hcpath
        · refine List.pairwise_append.mpr ⟨hfsorted, List.pairwise_singleton _ _, ?_⟩
          intro x hx y hy
          rw [List.mem_singleton.mp hy, hcdepth]
          exact (hfdepths x hx).2
        · intro n hn
          rcases List.mem_append.mp hn with h | h
          · exact hfdepths n h
          · rw [List.mem_singleton.mp h, hcdepth]
            omega
        · intro n hn
          rcases List.mem_append.mp hn with h | h
          · exact hfopt n h
          · rw [List.mem_singleton.mp h]
            exact hcopt
        · rw [statesOf_append]
          refine List.Nodup.append hfnodup (List.nodup_singleton _) ?_
          intro x hx hx'
          rw [show statesOf [c] = [c.state] from rfl, List.mem_singleton] at hx'
          exact hcF (hx' ▸ hx)
        · intro s hs
          rw [statesOf_append] at hs
          rcases List.mem_append.mp hs with h | h
          · exact hfdisj s h
          · rw [show statesOf [c] = [c.state] from rfl, List.mem_singleton] at h
            exact h ▸ hcE
        · intro n hn
          rcases List.mem_append.mp hn with h | h
          · exact hfnongoal n h
          · rw [List.mem_singleton.mp h]
            exact hcgf
        · intro s hs
          rw [statesOf_append]
          exact List.mem_append.mpr (Or.inl (hrest s hs))
        · intro c' hc'
          exact hcs c' (List.mem_cons_of_mem _ hc')
        · intro a' ha'
          rcases hcover a' ha' with h | h | h
          · rcases List.mem_cons.mp h with h' | h'
            · refine Or.inr (Or.inr ?_)
              rw [statesOf_append]
              refine List.mem_append.mpr (Or.inr ?_)
              rw [show statesOf [c] = [c.state] from rfl, List.mem_singleton]
              rw [← h']
              rfl
            · exact Or.inl h'
          · exact Or.inr (Or.inl h)
          · refine Or.inr (Or.inr ?_)
            rw [statesOf_append]
            exact List.mem_append.mpr (Or.inl h)
        · rcases hroot with h | h
          · exact Or.inl h
          · refine Or.inr ?_
            rw [statesOf_append]
            exact List.mem_append.mpr (Or.inl h)
    · simp only [bfsProcess]
      rw [if_neg hguard]
      refine bfsProcess_spec p s0 node rest E hInv cs front hfpaths hfsorted hfdepths hfopt
        hfnodup hfdisj hfnongoal hrest ?_ ?_ hroot
      · intro c' hc'
        exact hcs c' (List.mem_cons_of_mem _ hc')
      · intro a' ha'
        rcases hcover a' ha' with h | h | h
        · rcases List.mem_cons.mp h with h' | h'
          · -- the skipped child: its state is already explored or in the frontier
            have hcst : p.result node.state a' = c.state := by rw [← h']; rfl
            rw [hcst]
            rcases not_and_or.mp hguard with hx | hx
            · exact Or.inr (Or.inl (not_not.mp hx))
            · exact Or.inr (Or.inr (not_not.mp hx))
          · exact Or.inl h'
        · exact Or.inr (Or.inl h)
        · exact Or.inr (Or.inr h)

lemma bfsInv_tail_facts {σ α : Type} [DecidableEq σ] [DecidableEq α] {p : SProblem σ α}
    {s0 : σ} {node : SNode σ α} {rest : List (SNode σ α)} {E : List σ}
    (hInv : BFSInv p s0 (node :: rest) E) :
    (statesOf rest).Nodup ∧ (∀ s ∈ statesOf rest, s ∉ node.state :: E) ∧
      (s0 ∈ node.state :: E ∨ s0 ∈ statesOf rest) := by
  have hsplit : statesOf (node :: rest) = node.state :: statesOf rest := rfl
  have hnodup := hInv.nodupQ
  rw [hsplit] at hnodup
  obtain ⟨hhead, htail⟩ := List.nodup_cons.mp hnodup
  refine ⟨htail, ?_, ?_⟩
  · intro s hs hmem
    rcases List.mem_cons.mp hmem with rfl | hmem'
    · exact hhead hs
    · exact hInv.disjQE s (hsplit ▸ List.mem_cons_of_mem _ hs) hmem'
  · rcases hInv.rootIn with h | h
    · exact Or.inl (List.mem_cons_of_mem _ h)
    · rw [hsplit] at h
      rcases List.mem_cons.mp h with h' | h'
      · exact Or.inl (h' ▸ List.mem_cons_self _ _)
      · exact Or.inr h'

lemma bfsLoop_sound {σ α : Type} [DecidableEq σ] [DecidableEq α] (p : SProblem σ α)
    (s0 : σ) :
    ∀ (fuel : Nat) (q : List (SNode σ α)) (E : List σ) (c : SNode σ α),
      BFSInv p s0 q E → bfsLoop p fuel q E = some c →
      p.goal_test c.state = true ∧ NodePath p s0 c ∧
        ∀ w, validSeq p s0 w = true → p.goal_test (replay p s0 w) = true →
          c.solution.length ≤ w.length
  | 0, q, E, c, _, h => by
    simp only [bfsLoop] at h
    cases h
  | fuel + 1, [], E, c, _, h => by
    simp only [bfsLoop] at h
    cases h
  | fuel + 1, node :: rest, E, c, hInv, h => by
    obtain ⟨htnodup, htdisj, htroot⟩ := bfsInv_tail_facts hInv
    have haux := bfsProcess_spec p s0 node rest E hInv (SNode.expand p node) rest
      (fun n hn => hInv.paths n (List.mem_cons_of_mem _ hn))
      ((List.pairwise_cons.mp hInv.sorted).2)
      (fun n hn => ⟨head_depth_min hInv.sorted n (List.mem_cons_of_mem _ hn),
        hInv.twoLevels n (List.mem_cons_of_mem _ hn) node (List.mem_cons_self _ _)⟩)
      (fun n hn => hInv.optimal n (List.mem_cons_of_mem _ hn))
      htnodup htdisj
      (fun n hn => hInv.nongoalQ n (List.mem_cons_of_mem _ hn))
      (fun s hs => hs)
      (fun c' hc' => mem_expand.mp hc')
      (fun a ha => Or.inl (mem_expand.mpr ⟨a, ha, rfl⟩))
      htroot
    simp only [bfsLoop] at h
    rcases hq : bfsProcess p (node.state :: E) rest (SNode.expand p node) with c' | front'
    · rw [hq] at h
      cases h
      exact haux.1 _ hq
    · rw [hq] at h
      exact bfsLoop_sound p s0 fuel front' (node.state :: E) c (haux.2 front' hq) h

lemma bfsInv_init {σ α : Type} [DecidableEq σ] [DecidableEq α] (p : SProblem σ α)
    (s0 : σ) (hng : p.goal_test s0 = false) :
    BFSInv p s0 [SNode.root s0] [] := by
  refine ⟨?_, ?_, ?_, ?_, ?_, ?_, ?_, ?_, ?_, ?_, ?_, ?_⟩
  · intro n hn
    rw [List.mem_singleton.mp hn]
    exact NodePath_root p s0
  · exact List.pairwise_singleton _ _
  · intro n hn m hm
    rw [List.mem_singleton.mp hn]
    simp [SNode.depth]
  · intro n hn m _
    rw [List.mem_singleton.mp hn]
    exact Nat.zero_le m
  · intro t m _ hall
    exfalso
    have := hall (SNode.root s0) (List.mem_singleton_self _)
    simp [SNode.depth] at this
  · intro s hs
    cases hs
  · intro n hn
    rw [List.mem_singleton.mp hn]
    exact hng
  · intro s hs
    cases hs
  · exact List.nodup_singleton _
  · intro s _ hmem
    cases hmem
  · exact List.nodup_nil
  · exact Or.inr (List.mem_singleton_self _)

lemma bfsLoop_complete {σ α : Type} [DecidableEq σ] [DecidableEq α] (p : SProblem σ α)
    (s0 : σ) (U : List σ)
    (hU : ∀ w, validSeq p s0 w = true → replay p s0 w ∈ U)
    (wg : List α) (hwgv : validSeq p s0 wg = true)
    (hwgg : p.goal_test (replay p s0 wg) = true) :
    ∀ (fuel : Nat) (q : List (SNode σ α)) (E : List σ),
      BFSInv p s0 q E → (∀ s ∈ E, s ∈ U) → U.length + 1 ≤ E.length + fuel →
      ∃ c, bfsLoop p fuel q E = some c
  | 0, q, E, hInv, hEU, hfuel => by
    exfalso
    have hle : E.length ≤ U.length :=
      (List.subperm_of_subset hInv.nodupE hEU).length_le
    omega
  | fuel + 1, [], E, hInv, hEU, hfuel => by
    exfalso
    have hclosed : ∀ s ∈ E, ∀ a ∈ p.actions s, p.result s a ∈ E := by
      intro s hs a ha
      rcases hInv.closure s hs a ha with h | h
      · exact h
      · simp [statesOf] at h
    have hs0 : s0 ∈ E := by
      rcases hInv.rootIn with h | h
      · exact h
      · simp [statesOf] at h
    have := hInv.nongoalE _ (closed_reach hclosed wg s0 hs0 hwgv)
    rw [this] at hwgg
    cases hwgg
  | fuel + 1, node :: rest, E, hInv, hEU, hfuel => by
    obtain ⟨htnodup, htdisj, htroot⟩ := bfsInv_tail_facts hInv
    have haux := bfsProcess_spec p s0 node rest E hInv (SNode.expand p node) rest
      (fun n hn => hInv.paths n (List.mem_cons_of_mem _ hn))
      ((List.pairwise_cons.mp hInv.sorted).2)
      (fun n hn => ⟨head_depth_min hInv.sorted n (List.mem_cons_of_mem _ hn),
        hInv.twoLevels n (List.mem_cons_of_mem _ hn) node (List.mem_cons_self _ _)⟩)
      (fun n hn => hInv.optimal n (List.mem_cons_of_mem _ hn))
      htnodup htdisj
      (fun n hn => hInv.nongoalQ n (List.mem_cons_of_mem _ hn))
      (fun s hs => hs)
      (fun c' hc' => mem_expand.mp hc')
      (fun a ha => Or.inl (mem_expand.mpr ⟨a, ha, rfl⟩))
      htroot
    rcases hq : bfsProcess p (node.state :: E) rest (SNode.expand p node) with c' | front'
    · refine ⟨c', ?_⟩
      simp only [bfsLoop]
      rw [hq]
    · have hnodeU : node.state ∈ U := by
        obtain ⟨hv, hr, _⟩ := hInv.paths node (List.mem_cons_self _ _)
        exact hr ▸ hU node.solution hv
      have hEU' : ∀ s ∈ node.state :: E, s ∈ U := by
        intro s hs
        rcases List.mem_cons.mp hs with rfl | hs'
        · exact hnodeU
        · exact hEU s hs'
      have hfuel' : U.length + 1 ≤ (node.state :: E).length + fuel := by
        simp only [List.length_cons]
        omega
      obtain ⟨c, hc⟩ := bfsLoop_complete p s0 U hU wg hwgv hwgg fuel front'
        (node.state :: E) (haux.2 front' hq) hEU' hfuel'
      refine ⟨c, ?_⟩
      simp only [bfsLoop]
      rw [hq]
      exact hc

lemma replay_perm_range (s0 : List Nat) :
    ∀ (w : List Char) (s : List Nat), List.Perm s (List.range 9) →
      validSeq (eightPuzzle s0 goalState) s w = true →
      List.Perm (replay (eightPuzzle s0 goalState) s w) (List.range 9)
  | [], s, hperm, _ => hperm
  | a :: w, s, hperm, hv => by
    by_cases ha : a ∈ (eightPuzzle s0 goalState).actions s
    · rw [validSeq, if_pos ha] at hv
      rw [replay]
      exact replay_perm_range s0 w _ (result_perm_range s hperm a ha) hv
    · rw [validSeq, if_neg ha] at hv
      cases hv

lemma goal_test_iff (s0 s : List Nat) :
    (eightPuzzle s0 goalState).goal_test s = true ↔ s = goalState := by
  simp [eightPuzzle, EightPuzzle.goal_test]

lemma bfs_returns_shortest (s0 : List Nat) (hperm : List.Perm s0 (List.range 9))
    (wg : List Char) (hwgv : validSeq (eightPuzzle s0 goalState) s0 wg = true)
    (hwgr : replay (eightPuzzle s0 goalState) s0 wg = goalState) :
    (∀ fuel n, breadth_first_graph_search (eightPuzzle s0 goalState) fuel = some n →
      validSeq (eightPuzzle s0 goalState) s0 n.solution = true ∧
      replay (eightPuzzle s0 goalState) s0 n.solution = goalState ∧
      ∀ w, validSeq (eightPuzzle s0 goalState) s0 w = true →
        replay (eightPuzzle s0 goalState) s0 w = goalState →
        n.solution.length ≤ w.length) ∧
    (∃ fuel n, breadth_first_graph_search (eightPuzzle s0 goalState) fuel = some n) := by
  have hwgg : (eightPuzzle s0 goalState).goal_test
      (replay (eightPuzzle s0 goalState) s0 wg) = true :=
    (goal_test_iff s0 _).mpr hwgr
  constructor
  · intro fuel n h
    rw [breadth_first_graph_search] at h
    by_cases hg : (eightPuzzle s0 goalState).goal_test (eightPuzzle s0 goalState).initial = true
    · rw [if_pos hg] at h
      cases h
      refine ⟨rfl, ?_, ?_⟩
      · show s0 = goalState
        exact (goal_test_iff s0 s0).mp hg
      · intro w _ _
        simp [SNode.solution]
    · rw [if_neg hg] at h
      obtain ⟨hgoal, ⟨hv, hr, _⟩, hmin⟩ := bfsLoop_sound
        (eightPuzzle s0 goalState) s0 fuel [SNode.root s0] [] n
        (bfsInv_init _ s0 (bool_eq_false hg)) h
      refine ⟨hv, ?_, fun w hwv hwr => ?_⟩
      · rw [hr]
        exact (goal_test_iff s0 _).mp hgoal
      · exact hmin w hwv ((goal_test_iff s0 _).mpr hwr)
  · by_cases hg : (eightPuzzle s0 goalState).goal_test (eightPuzzle s0 goalState).initial = true
    · exact ⟨0, SNode.root s0, by rw [breadth_first_graph_search, if_pos hg]; rfl⟩
    · have hU : ∀ w, validSeq (eightPuzzle s0 goalState) s0 w = true →
          replay (eightPuzzle s0 goalState) s0 w ∈ (List.range 9).permutations := by
        intro w hw
        exact List.mem_permutations.mpr (replay_perm_range s0 w s0 hperm hw)
      obtain ⟨c, hc⟩ := bfsLoop_complete (eightPuzzle s0 goalState) s0
        (List.range 9).permutations hU wg hwgv hwgg
        ((List.range 9).permutations.length + 1) [SNode.root s0] []
        (bfsInv_init _ s0 (bool_eq_false hg))
        (fun s hs => by cases hs)
        (le_of_eq (by rw [List.length_nil, Nat.zero_add]))
      exact ⟨(List.range 9).permutations.length + 1, c,
        by rw [breadth_first_graph_search, if_neg hg]; exact hc⟩

/-! ### C1 part 2: move parity — every move flips the board permutation's
sign, so all valid paths between two fixed boards have lengths of the same
parity. -/

lemma result_pointwise (s : List Nat) (hperm : List.Perm s (List.range 9))
    (a : Char) (ha : a ∈ EightPuzzle.actions s) :
    (EightPuzzle.result s a).getD (find_blank_square s) 0 =
      s.getD (moveDest (find_blank_square s) a) 0 ∧
    (EightPuzzle.result s a).getD (moveDest (find_blank_square s) a) 0 =
      s.getD (find_blank_square s) 0 ∧
    ∀ i, i ≠ find_blank_square s → i ≠ moveDest (find_blank_square s) a →
      (EightPuzzle.result s a).getD i 0 = s.getD i 0 := by
  obtain ⟨h9, hc1, hmem⟩ := perm_length_count s hperm
  obtain ⟨hb9, hbv, huniq⟩ := blank_spec s h9 hc1
  obtain ⟨hn9, hnb⟩ := moveDest_lt s a ha hb9
  have hres := result_eq_swap s a ha hb9
  have hbl : find_blank_square s < s.length := h9 ▸ hb9
  have hnl : moveDest (find_blank_square s) a <
      (s.set (find_blank_square s) (s.getD (moveDest (find_blank_square s) a) 0)).length := by
    rw [List.length_set, h9]
    exact hn9
  refine ⟨?_, ?_, ?_⟩
  · rw [hres, getD_set_ne _ _ _ _ _ hnb, getD_set_self _ _ _ _ hbl]
  · rw [hres, getD_set_self _ _ _ _ hnl]
  · intro i hib hin
    rw [hres, getD_set_ne _ _ _ _ _ (Ne.symm hin), getD_set_ne _ _ _ _ _ (Ne.symm hib)]

lemma statePerm_congr {s1 s2 : List Nat} (h : s1 = s2)
    (p1 : List.Perm s1 (List.range 9)) (p2 : List.Perm s2 (List.range 9)) :
    statePerm s1 p1 = statePerm s2 p2 := by
  subst h
  rfl

lemma statePerm_result_swap (s : List Nat) (h : List.Perm s (List.range 9))
    (a : Char) (ha : a ∈ EightPuzzle.actions s)
    (hr : List.Perm (EightPuzzle.result s a) (List.range 9)) :
    ∃ x y : Fin 9, x ≠ y ∧
      statePerm (EightPuzzle.result s a) hr = statePerm s h * Equiv.swap x y := by
  obtain ⟨h9, hc1, hmem⟩ := perm_length_count s h
  have hb9 : find_blank_square s < 9 := (blank_spec s h9 hc1).1
  obtain ⟨hn9, hnb⟩ := moveDest_lt s a ha hb9
  obtain ⟨hp1, hp2, hp3⟩ := result_pointwise s h a ha
  refine ⟨⟨find_blank_square s, hb9⟩, ⟨moveDest (find_blank_square s) a, hn9⟩,
    fun hc => hnb (by simpa using (congrArg Fin.val hc).symm), ?_⟩
  apply Equiv.ext
  intro i
  apply Fin.ext
  show (EightPuzzle.result s a).getD i.1 0 =
    s.getD ((Equiv.swap (⟨find_blank_square s, hb9⟩ : Fin 9)
      ⟨moveDest (find_blank_square s) a, hn9⟩ i) : Fin 9).1 0
  rcases eq_or_ne i.1 (find_blank_square s) with hib | hib
  · have hieq : i = (⟨find_blank_square s, hb9⟩ : Fin 9) := Fin.ext hib
    rw [hieq, Equiv.swap_apply_left]
    simpa using hp1
  · rcases eq_or_ne i.1 (moveDest (find_blank_square s) a) with hin | hin
    · have hieq : i = (⟨moveDest (find_blank_square s) a, hn9⟩ : Fin 9) := Fin.ext hin
      rw [hieq, Equiv.swap_apply_right]
      simpa using hp2
    · rw [Equiv.swap_apply_of_ne_of_ne (fun hc => hib (by simpa using congrArg Fin.val hc))
        (fun hc => hin (by simpa using congrArg Fin.val hc))]
      exact hp3 i.1 hib hin

lemma statePerm_result_sign (s : List Nat) (h : List.Perm s (List.range 9))
    (a : Char) (ha : a ∈ EightPuzzle.actions s)
    (hr : List.Perm (EightPuzzle.result s a) (List.range 9)) :
    Equiv.Perm.sign (statePerm (EightPuzzle.result s a) hr) =
      -Equiv.Perm.sign (statePerm s h) := by
  obtain ⟨x, y, hxy, heq⟩ := statePerm_result_swap s h a ha hr
  rw [heq, Equiv.Perm.sign_mul, Equiv.Perm.sign_swap hxy, mul_neg, mul_one]

lemma replay_sign (s0 : List Nat) :
    ∀ (w : List Char) (s : List Nat) (hs : List.Perm s (List.range 9)),
      validSeq (eightPuzzle s0 goalState) s w = true →
      ∀ (hr : List.Perm (replay (eightPuzzle s0 goalState) s w) (List.range 9)),
      Equiv.Perm.sign (statePerm (replay (eightPuzzle s0 goalState) s w) hr) =
        (-1) ^ w.length * Equiv.Perm.sign (statePerm s hs)
  | [], s, hs, _, hr => by
    have : statePerm (replay (eightPuzzle s0 goalState) s []) hr = statePerm s hs :=
      statePerm_congr rfl hr hs
    rw [this]
    simp
  | a :: w, s, hs, hv, hr => by
    by_cases ha : a ∈ (eightPuzzle s0 goalState).actions s
    · rw [validSeq, if_pos ha] at hv
      have hs' : List.Perm (EightPuzzle.result s a) (List.range 9) :=
        result_perm_range s hs a ha
      have ih := replay_sign s0 w ((eightPuzzle s0 goalState).result s a) hs' hv hr
      have hcg : statePerm ((eightPuzzle s0 goalState).result s a) hs' =
          statePerm (EightPuzzle.result s a) hs' := statePerm_congr rfl hs' hs'
      rw [hcg] at ih
      have goal' : Equiv.Perm.sign (statePerm (replay (eightPuzzle s0 goalState)
          ((eightPuzzle s0 goalState).result s a) w) hr) =
          (-1) ^ (a :: w).length * Equiv.Perm.sign (statePerm s hs) := by
        rw [ih, statePerm_result_sign s hs a ha hs', List.length_cons, pow_succ]
        simp [mul_neg, mul_assoc]
      exact goal'
    · rw [validSeq, if_neg ha] at hv
      cases hv

lemma neg_one_pow_parity (l1 l2 : Nat) (h : ((-1 : ℤˣ)) ^ l1 = (-1) ^ l2) :
    l1 % 2 = l2 % 2 := by
  rcases Nat.even_or_odd l1 with h1 | h1 <;> rcases Nat.even_or_odd l2 with h2 | h2
  · rw [Nat.even_iff] at h1 h2
    omega
  · exfalso
    rw [Even.neg_one_pow h1, Odd.neg_one_pow h2] at h
    have := congrArg Units.val h
    simp at this
  · exfalso
    rw [Odd.neg_one_pow h1, Even.neg_one_pow h2] at h
    have := congrArg Units.val h
    simp at this
  · rw [Nat.odd_iff] at h1 h2
    omega

/-- Two valid action sequences between the same pair of boards have lengths of
the same parity. -/
lemma paths_same_parity (s0 : List Nat) (hs0 : List.Perm s0 (List.range 9))
    (w1 w2 : List Char) {t : List Nat}
    (h1v : validSeq (eightPuzzle s0 goalState) s0 w1 = true)
    (h1r : replay (eightPuzzle s0 goalState) s0 w1 = t)
    (h2v : validSeq (eightPuzzle s0 goalState) s0 w2 = true)
    (h2r : replay (eightPuzzle s0 goalState) s0 w2 = t) :
    w1.length % 2 = w2.length % 2 := by
  subst h1r
  have ht1 : List.Perm (replay (eightPuzzle s0 goalState) s0 w1) (List.range 9) :=
    replay_perm_range s0 w1 s0 hs0 h1v
  have ht2 : List.Perm (replay (eightPuzzle s0 goalState) s0 w2) (List.range 9) :=
    replay_perm_range s0 w2 s0 hs0 h2v
  have e1 := replay_sign s0 w1 s0 hs0 h1v ht1
  have e2 := replay_sign s0 w2 s0 hs0 h2v ht2
  have hcg : statePerm (replay (eightPuzzle s0 goalState) s0 w2) ht2 =
      statePerm (replay (eightPuzzle s0 goalState) s0 w1) ht1 :=
    statePerm_congr h2r ht2 ht1
  rw [hcg, e1] at e2
  exact (neg_one_pow_parity w2.length w1.length (mul_right_cancel e2.symm)).symm

/-! ### C1 part 3: the misplaced-tile count (blank excluded) moves by at most
one per step, so `EightPuzzle.h` between path-connected boards differs by at
most the path length plus one. -/

lemma countP_zip_eq_sum_miss :
    ∀ (s g : List Nat), (s.zip g).countP (fun pr => pr.1 != pr.2 && pr.1 != 0) =
      ∑ i ∈ Finset.range (min s.length g.length),
        (if s.getD i 0 ≠ g.getD i 0 ∧ s.getD i 0 ≠ 0 then 1 else 0)
  | [], g => by simp
  | x :: xs, [] => by simp
  | x :: xs, y :: ys => by
    have ih := countP_zip_eq_sum_miss xs ys
    have hmin : min (x :: xs).length (y :: ys).length = min xs.length ys.length + 1 := by
      simp [Nat.succ_min_succ]
    rw [hmin, Finset.sum_range_succ']
    simp only [List.getD_cons_succ, List.getD_cons_zero]
    rw [List.zip_cons_cons, List.countP_cons, ih]
    by_cases hxy : x = y <;> by_cases hx0 : x = 0 <;> simp [hxy, hx0]

lemma missCount_eq_sum (goal s : List Nat) (hs : s.length = 9) (hg : goal.length = 9) :
    missCount goal s =
      ∑ i ∈ Finset.range 9, (if s.getD i 0 ≠ goal.getD i 0 ∧ s.getD i 0 ≠ 0 then 1 else 0) := by
  rw [missCount, countP_zip_eq_sum_miss, hs, hg, Nat.min_self]

lemma missCount_le_hState (goal s : List Nat) (hs : s.length = 9) (hg : goal.length = 9) :
    missCount goal s ≤ EightPuzzle.hState goal s := by
  rw [missCount_eq_sum goal s hs hg, hState_eq_sum goal s hs hg]
  refine Finset.sum_le_sum fun i _ => ?_
  split
  · next h => rw [if_pos h.1]
  · omega

lemma hState_le_missCount_add_one (s : List Nat) (hs : s.length = 9)
    (hc1 : s.count 0 = 1) :
    EightPuzzle.hState goalState s ≤ missCount goalState s + 1 := by
  have hg : goalState.length = 9 := by decide
  obtain ⟨hb9, hbv, huniq⟩ := blank_spec s hs hc1
  rw [missCount_eq_sum goalState s hs hg, hState_eq_sum goalState s hs hg]
  have hpoint : ∀ i ∈ Finset.range 9,
      (if s.getD i 0 ≠ goalState.getD i 0 then 1 else 0) ≤
      (if s.getD i 0 ≠ goalState.getD i 0 ∧ s.getD i 0 ≠ 0 then 1 else 0) +
      (if i = find_blank_square s then 1 else 0) := by
    intro i hi
    by_cases h0 : s.getD i 0 = 0
    · have heq := huniq i (Finset.mem_range.mp hi) h0
      rw [if_pos heq]
      have h1 : (if s.getD i 0 ≠ goalState.getD i 0 then 1 else 0) ≤ 1 := by
        split <;> omega
      omega
    · split
      · next h => rw [if_pos ⟨h, h0⟩]; omega
      · omega
  calc ∑ i ∈ Finset.range 9, (if s.getD i 0 ≠ goalState.getD i 0 then 1 else 0)
      ≤ ∑ i ∈ Finset.range 9,
        ((if s.getD i 0 ≠ goalState.getD i 0 ∧ s.getD i 0 ≠ 0 then 1 else 0) +
          (if i = find_blank_square s then 1 else 0)) := Finset.sum_le_sum hpoint
    _ = (∑ i ∈ Finset.range 9,
        (if s.getD i 0 ≠ goalState.getD i 0 ∧ s.getD i 0 ≠ 0 then 1 else 0)) +
        ∑ i ∈ Finset.range 9, (if i = find_blank_square s then 1 else 0) :=
      Finset.sum_add_distrib
    _ ≤ _ := by
      have : ∑ i ∈ Finset.range 9, (if i = find_blank_square s then 1 else 0) = 1 := by
        rw [Finset.sum_ite_eq' (Finset.range 9) (find_blank_square s) (fun _ => 1)]
        rw [if_pos (Finset.mem_range.mpr hb9)]
      omega

lemma missCount_move (s : List Nat) (hperm : List.Perm s (List.range 9))
    (a : Char) (ha : a ∈ EightPuzzle.actions s) :
    missCount goalState (EightPuzzle.result s a) ≤ missCount goalState s + 1 ∧
    missCount goalState s ≤ missCount goalState (EightPuzzle.result s a) + 1 := by
  obtain ⟨h9, hc1, hmem⟩ := perm_length_count s hperm
  obtain ⟨hb9, hbv, huniq⟩ := blank_spec s h9 hc1
  obtain ⟨hn9, hnb⟩ := moveDest_lt s a ha hb9
  obtain ⟨hp1, hp2, hp3⟩ := result_pointwise s hperm a ha
  have h9' : (EightPuzzle.result s a).length = 9 := by
    simpa using (result_perm_range s hperm a ha).length_eq
  have hg : goalState.length = 9 := by decide
  rw [missCount_eq_sum goalState s h9 hg, missCount_eq_sum goalState _ h9' hg]
  set b := find_blank_square s with hbdef
  set n := moveDest (find_blank_square s) a with hndef
  set F : Nat → Nat := fun i => if s.getD i 0 ≠ goalState.getD i 0 ∧ s.getD i 0 ≠ 0 then 1 else 0 with hF
  set G : Nat → Nat := fun i =>
    if (EightPuzzle.result s a).getD i 0 ≠ goalState.getD i 0 ∧
      (EightPuzzle.result s a).getD i 0 ≠ 0 then 1 else 0 with hG
  have hBsub : ({b, n} : Finset ℕ) ⊆ Finset.range 9 := by
    intro x hx
    rcases Finset.mem_insert.mp hx with rfl | hx
    · exact Finset.mem_range.mpr hb9
    · rw [Finset.mem_singleton.mp hx]
      exact Finset.mem_range.mpr hn9
  have hsplitF : (∑ i ∈ Finset.range 9 \ {b, n}, F i) + ∑ i ∈ ({b, n} : Finset ℕ), F i =
      ∑ i ∈ Finset.range 9, F i := Finset.sum_sdiff hBsub
  have hsplitG : (∑ i ∈ Finset.range 9 \ {b, n}, G i) + ∑ i ∈ ({b, n} : Finset ℕ), G i =
      ∑ i ∈ Finset.range 9, G i := Finset.sum_sdiff hBsub
  have hsame : ∑ i ∈ Finset.range 9 \ {b, n}, F i = ∑ i ∈ Finset.range 9 \ {b, n}, G i := by
    refine Finset.sum_congr rfl fun i hi => ?_
    obtain ⟨_, hiB⟩ := Finset.mem_sdiff.mp hi
    have hib : i ≠ b := fun h => hiB (by simp [h])
    have hin : i ≠ n := fun h => hiB (by simp [h])
    rw [hF, hG]
    dsimp only
    rw [hp3 i hib hin]
  have hbn : b ∉ ({n} : Finset ℕ) := fun h => hnb (Finset.mem_singleton.mp h).symm
  have hFB : ∑ i ∈ ({b, n} : Finset ℕ), F i ≤ 1 := by
    rw [Finset.sum_insert hbn, Finset.sum_singleton]
    have hFb : F b = 0 := by
      rw [hF]
      dsimp only
      rw [hbv]
      simp
    have hFn : F n ≤ 1 := by rw [hF]; dsimp only; split <;> omega
    omega
  have hGB : ∑ i ∈ ({b, n} : Finset ℕ), G i ≤ 1 := by
    rw [Finset.sum_insert hbn, Finset.sum_singleton]
    have hGn : G n = 0 := by
      rw [hG]
      dsimp only
      rw [hp2, hbv]
      simp
    have hGb : G b ≤ 1 := by rw [hG]; dsimp only; split <;> omega
    omega
  constructor
  · show (∑ i ∈ Finset.range 9, G i) ≤ (∑ i ∈ Finset.range 9, F i) + 1
    omega
  · show (∑ i ∈ Finset.range 9, F i) ≤ (∑ i ∈ Finset.range 9, G i) + 1
    omega

lemma missCount_chain (s0 : List Nat) :
    ∀ (v : List Char) (s : List Nat), List.Perm s (List.range 9) →
      validSeq (eightPuzzle s0 goalState) s v = true →
      missCount goalState s ≤
        missCount goalState (replay (eightPuzzle s0 goalState) s v) + v.length
  | [], s, _, _ => by simp [replay]
  | a :: v, s, hperm, hv => by
    by_cases ha : a ∈ (eightPuzzle s0 goalState).actions s
    · rw [validSeq, if_pos ha] at hv
      have h1 := (missCount_move s hperm a ha).2
      have h2 := missCount_chain s0 v ((eightPuzzle s0 goalState).result s a)
        (result_perm_range s hperm a ha) hv
      have hres_eq : (eightPuzzle s0 goalState).result s a = EightPuzzle.result s a := rfl
      rw [← hres_eq] at h1
      rw [replay]
      simp only [List.length_cons]
      omega
    · rw [validSeq, if_neg ha] at hv
      cases hv

/-- `EightPuzzle.h` of a board is at most the `h` of any board it can reach,
plus the path length, plus one. -/
lemma hState_chain (s0 : List Nat) (y : List Nat) (hy : List.Perm y (List.range 9))
    (v : List Char) (hv : validSeq (eightPuzzle s0 goalState) y v = true) :
    EightPuzzle.hState goalState y ≤
      EightPuzzle.hState goalState (replay (eightPuzzle s0 goalState) y v) + v.length + 1 := by
  obtain ⟨h9, hc1, _⟩ := perm_length_count y hy
  have hrepl : List.Perm (replay (eightPuzzle s0 goalState) y v) (List.range 9) :=
    replay_perm_range s0 v y hy hv
  obtain ⟨h9', _, _⟩ := perm_length_count _ hrepl
  have hg : goalState.length = 9 := by decide
  have l1 := hState_le_missCount_add_one y h9 hc1
  have l2 := missCount_chain s0 v y hy hv
  have l3 := missCount_le_hState goalState _ h9' hg
  omega

/-! ### C1 part 4: the priority frontier — pop, lookup, and removal facts. -/

lemma pqPop_eq_none {σ α : Type} :
    ∀ (q : List (Nat × SNode σ α)), pqPop q = none ↔ q = []
  | [] => by simp [pqPop]
  | e :: rest => by
    cases hr : pqPop rest with
    | none => simp [pqPop, hr]
    | some mr =>
      obtain ⟨m, rest'⟩ := mr
      simp only [pqPop, hr]
      split <;> simp

lemma pqPop_spec {σ α : Type} :
    ∀ (q q' : List (Nat × SNode σ α)) (e : Nat × SNode σ α),
      pqPop q = some (e, q') →
      e ∈ q ∧ List.Perm q (e :: q') ∧ ∀ e' ∈ q, e.1 ≤ e'.1
  | [], q', e, h => by simp [pqPop] at h
  | x :: rest, q', e, h => by
    cases hr : pqPop rest with
    | none =>
      simp only [pqPop, hr] at h
      have hrest : rest = [] := (pqPop_eq_none rest).mp hr
      subst hrest
      simp only [Option.some.injEq, Prod.mk.injEq] at h
      obtain ⟨rfl, rfl⟩ := h
      refine ⟨List.mem_singleton_self x, List.Perm.refl _, ?_⟩
      intro e' he'
      rw [List.mem_singleton.mp he']
    | some mr =>
      obtain ⟨m, rest'⟩ := mr
      obtain ⟨hmem, hperm, hmin⟩ := pqPop_spec rest rest' m hr
      simp only [pqPop, hr] at h
      by_cases hle : x.1 ≤ m.1
      · rw [if_pos hle] at h
        simp only [Option.some.injEq, Prod.mk.injEq] at h
        obtain ⟨rfl, rfl⟩ := h
        refine ⟨List.mem_cons_self _ _, List.Perm.refl _, ?_⟩
        intro e' he'
        rcases List.mem_cons.mp he' with rfl | he'
        · exact Nat.le_refl _
        · exact Nat.le_trans hle (hmin e' he')
      · rw [if_neg hle] at h
        simp only [Option.some.injEq, Prod.mk.injEq] at h
        obtain ⟨rfl, rfl⟩ := h
        refine ⟨List.mem_cons_of_mem x hmem, ?_, ?_⟩
        · exact List.Perm.trans (List.Perm.cons x hperm) (List.Perm.swap m x rest')
        · intro e' he'
          rcases List.mem_cons.mp he' with rfl | he'
          · omega
          · exact hmin e' he'

lemma mem_pqStates {σ α : Type} (q : List (Nat × SNode σ α)) (s : σ) :
    s ∈ pqStates q ↔ ∃ e ∈ q, SNode.state e.2 = s := by
  simp [pqStates, List.mem_map]

lemma pqRemove_sublist {σ α : Type} [DecidableEq σ] :
    ∀ (q : List (Nat × SNode σ α)) (s : σ), List.Sublist (pqRemove q s) q
  | [], s => by simp [pqRemove]
  | e :: rest, s => by
    rw [pqRemove]
    split
    · exact List.sublist_cons_self e rest
    · exact List.Sublist.cons₂ e (pqRemove_sublist rest s)

lemma mem_pqRemove_of_ne {σ α : Type} [DecidableEq σ] :
    ∀ (q : List (Nat × SNode σ α)) (s : σ) (e : Nat × SNode σ α),
      e ∈ q → SNode.state e.2 ≠ s → e ∈ pqRemove q s
  | [], s, e, he, _ => by cases he
  | x :: rest, s, e, he, hne => by
    rw [pqRemove]
    by_cases hx : SNode.state x.2 = s
    · rw [if_pos hx]
      rcases List.mem_cons.mp he with rfl | he'
      · exact absurd hx hne
      · exact he'
    · rw [if_neg hx]
      rcases List.mem_cons.mp he with rfl | he'
      · exact List.mem_cons_self _ _
      · exact List.mem_cons_of_mem x (mem_pqRemove_of_ne rest s e he' hne)

lemma not_mem_pqStates_pqRemove {σ α : Type} [DecidableEq σ] :
    ∀ (q : List (Nat × SNode σ α)) (s : σ), (pqStates q).Nodup →
      s ∉ pqStates (pqRemove q s)
  | [], s, _ => by simp [pqRemove, pqStates]
  | e :: rest, s, hnd => by
    have hnd' : SNode.state e.2 ∉ pqStates rest ∧ (pqStates rest).Nodup := by
      simpa [pqStates] using hnd
    rw [pqRemove]
    by_cases hx : SNode.state e.2 = s
    · rw [if_pos hx, ← hx]
      exact hnd'.1
    · rw [if_neg hx]
      intro hmem
      rcases List.mem_cons.mp hmem with heq | hmem'
      · exact hx heq.symm
      · exact not_mem_pqStates_pqRemove rest s hnd'.2 hmem'

lemma pqLookup_mem {σ α : Type} [DecidableEq σ] :
    ∀ (q : List (Nat × SNode σ α)) (s : σ) (v : Nat),
      pqLookup q s = some v → ∃ e ∈ q, SNode.state e.2 = s ∧ e.1 = v
  | [], s, v, h => by simp [pqLookup] at h
  | e :: rest, s, v, h => by
    rw [pqLookup] at h
    by_cases hx : SNode.state e.2 = s
    · rw [if_pos hx] at h
      exact ⟨e, List.mem_cons_self _ _, hx, (Option.some.injEq _ _).mp h⟩
    · rw [if_neg hx] at h
      obtain ⟨e', he', hs', hv'⟩ := pqLookup_mem rest s v h
      exact ⟨e', List.mem_cons_of_mem e he', hs', hv'⟩

lemma pqLookup_of_mem_nodup {σ α : Type} [DecidableEq σ] :
    ∀ (q : List (Nat × SNode σ α)) (s : σ) (e : Nat × SNode σ α),
      (pqStates q).Nodup → e ∈ q → SNode.state e.2 = s →
      pqLookup q s = some e.1
  | [], s, e, _, he, _ => by cases he
  | x :: rest, s, e, hnd, he, hs => by
    have hnd' : SNode.state x.2 ∉ pqStates rest ∧ (pqStates rest).Nodup := by
      simpa [pqStates] using hnd
    rw [pqLookup]
    by_cases hx : SNode.state x.2 = s
    · rw [if_pos hx]
      rcases List.mem_cons.mp he with rfl | he'
      · rfl
      · exfalso
        apply hnd'.1
        rw [hx, ← hs]
        exact (mem_pqStates rest _).mpr ⟨e, he', rfl⟩
    · rw [if_neg hx]
      rcases List.mem_cons.mp he with rfl | he'
      · exact absurd hs hx
      · exact pqLookup_of_mem_nodup rest s e hnd'.2 he' hs

/-! ### C1 part 5: processing one child preserves the frontier invariant,
keeps every surviving entry at least as cheap, and covers the child. -/

lemma bestFirstStep_QInv {σ α : Type} [DecidableEq σ] [DecidableEq α]
    (p : SProblem σ α) (hfun : σ → Nat) (s0 : σ) (ex : List σ)
    (f : SNode σ α → Nat)
    (hf : ∀ nd, f nd = SNode.path_cost nd + hfun (SNode.state nd))
    (q : List (Nat × SNode σ α)) (c : SNode σ α)
    (hq : QInv p hfun s0 ex q)
    (hc : validSeq p s0 (SNode.solution c) = true ∧
      replay p s0 (SNode.solution c) = SNode.state c ∧
      (SNode.solution c).length = SNode.path_cost c) :
    QInv p hfun s0 ex (bestFirstStep f ex q c) := by
  rw [bestFirstStep]
  by_cases h1 : SNode.state c ∉ ex ∧ SNode.state c ∉ pqStates q
  · rw [if_pos h1]
    refine ⟨?_, ?_, ?_⟩
    · intro e he
      rcases List.mem_append.mp he with he | he
      · exact hq.entries e he
      · rw [List.mem_singleton.mp he]
        exact ⟨hf c, hc.1, hc.2.1, hc.2.2⟩
    · have hst : pqStates (q ++ [(f c, c)]) = pqStates q ++ [SNode.state c] := by
        simp [pqStates]
      rw [hst, List.nodup_append]
      refine ⟨hq.nodup, List.nodup_singleton _, ?_⟩
      intro s hs hs'
      rw [List.mem_singleton.mp hs'] at hs
      exact h1.2 hs
    · intro s hs
      have hst : pqStates (q ++ [(f c, c)]) = pqStates q ++ [SNode.state c] := by
        simp [pqStates]
      rw [hst] at hs
      rcases List.mem_append.mp hs with hs | hs
      · exact hq.disj s hs
      · rw [List.mem_singleton.mp hs]
        exact h1.1
  · rw [if_neg h1]
    by_cases h2 : SNode.state c ∈ pqStates q
    · rw [if_pos h2]
      cases hl : pqLookup q (SNode.state c) with
      | none => simp only [hl]; exact hq
      | some fOld =>
        simp only [hl]
        by_cases hlt : f c < fOld
        · rw [if_pos hlt]
          have hsub : List.Sublist (pqStates (pqRemove q (SNode.state c))) (pqStates q) :=
            List.Sublist.map _ (pqRemove_sublist q _)
          refine ⟨?_, ?_, ?_⟩
          · intro e he
            rcases List.mem_append.mp he with he | he
            · exact hq.entries e ((pqRemove_sublist q _).subset he)
            · rw [List.mem_singleton.mp he]
              exact ⟨hf c, hc.1, hc.2.1, hc.2.2⟩
          · have hst : pqStates (pqRemove q (SNode.state c) ++ [(f c, c)]) =
                pqStates (pqRemove q (SNode.state c)) ++ [SNode.state c] := by
              simp [pqStates]
            rw [hst, List.nodup_append]
            refine ⟨hq.nodup.sublist hsub, List.nodup_singleton _, ?_⟩
            intro s hs hs'
            rw [List.mem_singleton.mp hs'] at hs
            exact not_mem_pqStates_pqRemove q _ hq.nodup hs
          · intro s hs
            have hst : pqStates (pqRemove q (SNode.state c) ++ [(f c, c)]) =
                pqStates (pqRemove q (SNode.state c)) ++ [SNode.state c] := by
              simp [pqStates]
            rw [hst] at hs
            rcases List.mem_append.mp hs with hs | hs
            · exact hq.disj s (hsub.subset hs)
            · rw [List.mem_singleton.mp hs]
              exact hq.disj _ h2
        · rw [if_neg hlt]
          exact hq
    · rw [if_neg h2]
      exact hq

lemma bestFirstStep_liveLE {σ α : Type} [DecidableEq σ] [DecidableEq α]
    (p : SProblem σ α) (hfun : σ → Nat) (s0 : σ) (ex : List σ)
    (f : SNode σ α → Nat)
    (hf : ∀ nd, f nd = SNode.path_cost nd + hfun (SNode.state nd))
    (q : List (Nat × SNode σ α)) (c : SNode σ α) (t : σ) (bound : Nat)
    (hq : QInv p hfun s0 ex q)
    (hlive : ∃ e ∈ q, SNode.state e.2 = t ∧ SNode.path_cost e.2 ≤ bound) :
    ∃ e ∈ bestFirstStep f ex q c,
      SNode.state e.2 = t ∧ SNode.path_cost e.2 ≤ bound := by
  obtain ⟨e, he, hst, hb⟩ := hlive
  rw [bestFirstStep]
  by_cases h1 : SNode.state c ∉ ex ∧ SNode.state c ∉ pqStates q
  · rw [if_pos h1]
    exact ⟨e, List.mem_append_left _ he, hst, hb⟩
  · rw [if_neg h1]
    by_cases h2 : SNode.state c ∈ pqStates q
    · rw [if_pos h2]
      cases hl : pqLookup q (SNode.state c) with
      | none => simp only [hl]; exact ⟨e, he, hst, hb⟩
      | some fOld =>
        simp only [hl]
        by_cases hlt : f c < fOld
        · rw [if_pos hlt]
          by_cases ht : t = SNode.state c
          · have hlq := pqLookup_of_mem_nodup q (SNode.state c) e hq.nodup he
              (by rw [hst, ht])
            rw [hl] at hlq
            have hfOld : fOld = e.1 := by
              exact (Option.some.injEq _ _).mp hlq
            have hent := hq.entries e he
            rw [hf c, hfOld, hent.1, hst, ht] at hlt
            refine ⟨(f c, c), List.mem_append_right _ (List.mem_singleton_self _), ?_, ?_⟩
            · exact ht.symm
            · show SNode.path_cost c ≤ bound
              omega
          · refine ⟨e, List.mem_append_left _
              (mem_pqRemove_of_ne q (SNode.state c) e he (by rw [hst]; exact ht)), hst, hb⟩
        · rw [if_neg hlt]
          exact ⟨e, he, hst, hb⟩
    · rw [if_neg h2]
      exact ⟨e, he, hst, hb⟩

lemma bestFirstStep_child {σ α : Type} [DecidableEq σ] [DecidableEq α]
    (p : SProblem σ α) (hfun : σ → Nat) (s0 : σ) (ex : List σ)
    (f : SNode σ α → Nat)
    (hf : ∀ nd, f nd = SNode.path_cost nd + hfun (SNode.state nd))
    (q : List (Nat × SNode σ α)) (c : SNode σ α)
    (hq : QInv p hfun s0 ex q) :
    SNode.state c ∈ ex ∨
    ∃ e ∈ bestFirstStep f ex q c,
      SNode.state e.2 = SNode.state c ∧ SNode.path_cost e.2 ≤ SNode.path_cost c := by
  rw [bestFirstStep]
  by_cases h1 : SNode.state c ∉ ex ∧ SNode.state c ∉ pqStates q
  · right
    rw [if_pos h1]
    exact ⟨(f c, c), List.mem_append_right _ (List.mem_singleton_self _), rfl, Nat.le_refl _⟩
  · rw [if_neg h1]
    by_cases h2 : SNode.state c ∈ pqStates q
    · rw [if_pos h2]
      obtain ⟨e0, he0, hs0⟩ := (mem_pqStates q _).mp h2
      have hl := pqLookup_of_mem_nodup q (SNode.state c) e0 hq.nodup he0 hs0
      simp only [hl]
      by_cases hlt : f c < e0.1
      · rw [if_pos hlt]
        right
        exact ⟨(f c, c), List.mem_append_right _ (List.mem_singleton_self _), rfl,
          Nat.le_refl _⟩
      · rw [if_neg hlt]
        right
        have hent := hq.entries e0 he0
        refine ⟨e0, he0, hs0, ?_⟩
        rw [hf c] at hlt
        rw [hent.1, hs0] at hlt
        omega
    · left
      by_contra hex
      exact h1 ⟨hex, h2⟩

/-! ### C1 part 6: folding all children of an expanded node into the frontier. -/

lemma foldl_bestFirstStep_QInv {σ α : Type} [DecidableEq σ] [DecidableEq α]
    (p : SProblem σ α) (hfun : σ → Nat) (s0 : σ) (ex : List σ)
    (f : SNode σ α → Nat)
    (hf : ∀ nd, f nd = SNode.path_cost nd + hfun (SNode.state nd)) :
    ∀ (cs : List (SNode σ α)) (q : List (Nat × SNode σ α)),
      QInv p hfun s0 ex q →
      (∀ c ∈ cs, validSeq p s0 (SNode.solution c) = true ∧
        replay p s0 (SNode.solution c) = SNode.state c ∧
        (SNode.solution c).length = SNode.path_cost c) →
      QInv p hfun s0 ex (List.foldl (bestFirstStep f ex) q cs)
  | [], q, hq, _ => hq
  | c :: cs, q, hq, hcs => by
    rw [List.foldl_cons]
    exact foldl_bestFirstStep_QInv p hfun s0 ex f hf cs _
      (bestFirstStep_QInv p hfun s0 ex f hf q c hq (hcs c (List.mem_cons_self _ _)))
      (fun c' hc' => hcs c' (List.mem_cons_of_mem _ hc'))

lemma foldl_bestFirstStep_liveLE {σ α : Type} [DecidableEq σ] [DecidableEq α]
    (p : SProblem σ α) (hfun : σ → Nat) (s0 : σ) (ex : List σ)
    (f : SNode σ α → Nat)
    (hf : ∀ nd, f nd = SNode.path_cost nd + hfun (SNode.state nd)) :
    ∀ (cs : List (SNode σ α)) (q : List (Nat × SNode σ α)) (t : σ) (bound : Nat),
      QInv p hfun s0 ex q →
      (∀ c ∈ cs, validSeq p s0 (SNode.solution c) = true ∧
        replay p s0 (SNode.solution c) = SNode.state c ∧
        (SNode.solution c).length = SNode.path_cost c) →
      (∃ e ∈ q, SNode.state e.2 = t ∧ SNode.path_cost e.2 ≤ bound) →
      ∃ e ∈ List.foldl (bestFirstStep f ex) q cs,
        SNode.state e.2 = t ∧ SNode.path_cost e.2 ≤ bound
  | [], q, t, bound, _, _, hlive => hlive
  | c :: cs, q, t, bound, hq, hcs, hlive => by
    rw [List.foldl_cons]
    exact foldl_bestFirstStep_liveLE p hfun s0 ex f hf cs _ t bound
      (bestFirstStep_QInv p hfun s0 ex f hf q c hq (hcs c (List.mem_cons_self _ _)))
      (fun c' hc' => hcs c' (List.mem_cons_of_mem _ hc'))
      (bestFirstStep_liveLE p hfun s0 ex f hf q c t bound hq hlive)

lemma foldl_bestFirstStep_child {σ α : Type} [DecidableEq σ] [DecidableEq α]
    (p : SProblem σ α) (hfun : σ → Nat) (s0 : σ) (ex : List σ)
    (f : SNode σ α → Nat)
    (hf : ∀ nd, f nd = SNode.path_cost nd + hfun (SNode.state nd)) :
    ∀ (cs : List (SNode σ α)) (q : List (Nat × SNode σ α)),
      QInv p hfun s0 ex q →
      (∀ c ∈ cs, validSeq p s0 (SNode.solution c) = true ∧
        replay p s0 (SNode.solution c) = SNode.state c ∧
        (SNode.solution c).length = SNode.path_cost c) →
      ∀ c ∈ cs, SNode.state c ∈ ex ∨
        ∃ e ∈ List.foldl (bestFirstStep f ex) q cs,
          SNode.state e.2 = SNode.state c ∧ SNode.path_cost e.2 ≤ SNode.path_cost c
  | [], _, _, _, c, hc => by cases hc
  | c' :: cs, q, hq, hcs, c, hc => by
    rw [List.foldl_cons]
    have hq' : QInv p hfun s0 ex (bestFirstStep f ex q c') :=
      bestFirstStep_QInv p hfun s0 ex f hf q c' hq (hcs c' (List.mem_cons_self _ _))
    have hcs' : ∀ c'' ∈ cs, validSeq p s0 (SNode.solution c'') = true ∧
        replay p s0 (SNode.solution c'') = SNode.state c'' ∧
        (SNode.solution c'').length = SNode.path_cost c'' :=
      fun c'' hc'' => hcs c'' (List.mem_cons_of_mem _ hc'')
    rcases List.mem_cons.mp hc with rfl | hc2
    · rcases bestFirstStep_child p hfun s0 ex f hf q c hq with hex | hlive
      · exact Or.inl hex
      · exact Or.inr (foldl_bestFirstStep_liveLE p hfun s0 ex f hf cs _ _ _
          hq' hcs' hlive)
    · exact foldl_bestFirstStep_child p hfun s0 ex f hf cs _ hq' hcs' c hc2

/-! ### C1 part 7: any path leaving the explored set crosses the frontier, so
a popped node's path cost is optimal (parity rules out the off-by-one). -/

lemma aInv_crossing {σ α : Type} [DecidableEq σ] [DecidableEq α]
    (p : SProblem σ α) (hfun : σ → Nat) (s0 : σ) (gE : σ → Nat)
    (q : List (Nat × SNode σ α)) (E : List σ)
    (hInv : AInv p hfun s0 gE q E) :
    ∀ (w : List α), validSeq p s0 w = true → replay p s0 w ∉ E →
      ∃ u v e, w = u ++ v ∧ e ∈ q ∧ SNode.state e.2 = replay p s0 u ∧
        SNode.path_cost e.2 ≤ u.length := by
  intro w
  induction w using List.reverseRecOn with
  | nil =>
    intro _ hnE
    rcases hInv.rootIn with h | ⟨e, he, hst, hc⟩
    · exact absurd h (by simpa [replay] using hnE)
    · exact ⟨[], [], e, rfl, he, by simpa [replay] using hst, by simp [hc]⟩
  | append_singleton u' a ih =>
    intro hv hnE
    rw [validSeq_append] at hv
    obtain ⟨hv1, hv2⟩ := Bool.and_eq_true_iff.mp hv
    by_cases ha : a ∈ p.actions (replay p s0 u')
    · have hstep : replay p s0 (u' ++ [a]) = p.result (replay p s0 u') a := by
        rw [replay_append]
        rfl
      by_cases hE : replay p s0 u' ∈ E
      · rcases hInv.closure _ hE a ha with hres | ⟨e, he, hst, hc⟩
        · exact absurd (hstep ▸ hres) hnE
        · refine ⟨u' ++ [a], [], e, (List.append_nil _).symm, he, ?_, ?_⟩
          · rw [hst, hstep]
          · have hge : gE (replay p s0 u') ≤ u'.length :=
              hInv.closedOpt _ hE u'.length ⟨u', hv1, rfl, Nat.le_refl _⟩
            have : (u' ++ [a]).length = u'.length + 1 := by simp
            omega
      · obtain ⟨u, v, e, hw, he, hst, hc⟩ := ih hv1 hE
        exact ⟨u, v ++ [a], e, by rw [hw, List.append_assoc], he, hst, hc⟩
    · rw [validSeq, if_neg ha] at hv2
      cases hv2

lemma astar_pop_min (s0 : List Nat) (hperm : List.Perm s0 (List.range 9))
    (gE : List Nat → Nat) (q q' : List (Nat × SNode (List Nat) Char))
    (E : List (List Nat)) (x : Nat × SNode (List Nat) Char)
    (hInv : AInv (eightPuzzle s0 goalState) (EightPuzzle.hState goalState) s0 gE q E)
    (hpop : pqPop q = some (x, q')) :
    ∀ w, validSeq (eightPuzzle s0 goalState) s0 w = true →
      replay (eightPuzzle s0 goalState) s0 w = SNode.state x.2 →
      SNode.path_cost x.2 ≤ w.length := by
  intro w hwv hwr
  by_contra hgt
  push_neg at hgt
  obtain ⟨hxmem, hxperm, hxmin⟩ := pqPop_spec q q' x hpop
  obtain ⟨hxf, hxv, hxr, hxl⟩ := hInv.entries x hxmem
  have hpar := paths_same_parity s0 hperm (SNode.solution x.2) w hxv hxr hwv hwr
  have hw2 : w.length + 2 ≤ SNode.path_cost x.2 := by omega
  have hnE : replay (eightPuzzle s0 goalState) s0 w ∉ E := by
    rw [hwr]
    exact hInv.disjQE (SNode.state x.2) ((mem_pqStates q _).mpr ⟨x, hxmem, rfl⟩)
  obtain ⟨u, v, e, hw, he, hes, hec⟩ :=
    aInv_crossing (eightPuzzle s0 goalState) (EightPuzzle.hState goalState) s0 gE q E
      hInv w hwv hnE
  obtain ⟨hef, hev, her, hel⟩ := hInv.entries e he
  have hwv' : validSeq (eightPuzzle s0 goalState) s0 (u ++ v) = true := by
    rw [← hw]
    exact hwv
  rw [validSeq_append] at hwv'
  obtain ⟨hu1, hu2⟩ := Bool.and_eq_true_iff.mp hwv'
  have hyperm : List.Perm (replay (eightPuzzle s0 goalState) s0 u) (List.range 9) :=
    replay_perm_range s0 u s0 hperm hu1
  have hchain := hState_chain s0 (replay (eightPuzzle s0 goalState) s0 u) hyperm v hu2
  have hrepl : replay (eightPuzzle s0 goalState)
      (replay (eightPuzzle s0 goalState) s0 u) v = SNode.state x.2 := by
    rw [← replay_append, ← hw, hwr]
  rw [hrepl] at hchain
  have hmin := hxmin e he
  rw [hxf, hef, hes] at hmin
  have hlen : w.length = u.length + v.length := by
    rw [hw]
    simp
  omega

/-! ### C1 part 8: expanding a popped non-goal node preserves the A*
invariant, recording the popped node's (optimal) path cost for its state. -/

lemma astar_step_inv (s0 : List Nat) (hperm : List.Perm s0 (List.range 9))
    (f : SNode (List Nat) Char → Nat)
    (hf : ∀ nd, f nd = SNode.path_cost nd + EightPuzzle.hState goalState (SNode.state nd))
    (gE : List Nat → Nat) (q q' : List (Nat × SNode (List Nat) Char))
    (E : List (List Nat)) (x : Nat × SNode (List Nat) Char)
    (hInv : AInv (eightPuzzle s0 goalState) (EightPuzzle.hState goalState) s0 gE q E)
    (hpop : pqPop q = some (x, q'))
    (hng : (eightPuzzle s0 goalState).goal_test (SNode.state x.2) = false) :
    AInv (eightPuzzle s0 goalState) (EightPuzzle.hState goalState) s0
      (fun t => if t = SNode.state x.2 then SNode.path_cost x.2 else gE t)
      (List.foldl (bestFirstStep f (SNode.state x.2 :: E)) q'
        (SNode.expand (eightPuzzle s0 goalState) x.2))
      (SNode.state x.2 :: E) := by
  obtain ⟨hxmem, hxperm, hxmin⟩ := pqPop_spec q q' x hpop
  obtain ⟨hxf, hxv, hxr, hxl⟩ := hInv.entries x hxmem
  have hxsE : SNode.state x.2 ∉ E :=
    hInv.disjQE _ ((mem_pqStates q _).mpr ⟨x, hxmem, rfl⟩)
  have hqperm : List.Perm (pqStates q) (SNode.state x.2 :: pqStates q') := by
    have := hxperm.map (fun e => SNode.state e.2)
    simpa [pqStates] using this
  have hq'facts : SNode.state x.2 ∉ pqStates q' ∧ (pqStates q').Nodup :=
    List.nodup_cons.mp (hqperm.nodup_iff.mp hInv.nodupQ)
  have hsubq : ∀ e ∈ q', e ∈ q := by
    intro e he
    exact hxperm.mem_iff.mpr (List.mem_cons_of_mem _ he)
  have hQ : QInv (eightPuzzle s0 goalState) (EightPuzzle.hState goalState) s0
      (SNode.state x.2 :: E) q' := by
    refine ⟨?_, hq'facts.2, ?_⟩
    · intro e he
      exact hInv.entries e (hsubq e he)
    · intro s hs
      have hsq : s ∈ pqStates q := hqperm.mem_iff.mpr (List.mem_cons_of_mem _ hs)
      intro hmem
      rcases List.mem_cons.mp hmem with rfl | hsE
      · exact hq'facts.1 hs
      · exact hInv.disjQE s hsq hsE
  have hcs : ∀ c ∈ SNode.expand (eightPuzzle s0 goalState) x.2,
      validSeq (eightPuzzle s0 goalState) s0 (SNode.solution c) = true ∧
      replay (eightPuzzle s0 goalState) s0 (SNode.solution c) = SNode.state c ∧
      (SNode.solution c).length = SNode.path_cost c := by
    intro c hc
    obtain ⟨a, ha, rfl⟩ := mem_expand.mp hc
    refine ⟨?_, ?_, ?_⟩
    · show validSeq (eightPuzzle s0 goalState) s0 (SNode.solution x.2 ++ [a]) = true
      rw [validSeq_append, hxv, Bool.true_and, hxr, validSeq, if_pos ha]
      rfl
    · show replay (eightPuzzle s0 goalState) s0 (SNode.solution x.2 ++ [a]) =
        (eightPuzzle s0 goalState).result (SNode.state x.2) a
      rw [replay_append, hxr]
      rfl
    · show (SNode.solution x.2 ++ [a]).length = SNode.path_cost x.2 + 1
      rw [List.length_append, hxl]
      rfl
  have hQ2 := foldl_bestFirstStep_QInv (eightPuzzle s0 goalState)
    (EightPuzzle.hState goalState) s0 (SNode.state x.2 :: E) f hf
    (SNode.expand (eightPuzzle s0 goalState) x.2) q' hQ hcs
  have hliveLE := foldl_bestFirstStep_liveLE (eightPuzzle s0 goalState)
    (EightPuzzle.hState goalState) s0 (SNode.state x.2 :: E) f hf
    (SNode.expand (eightPuzzle s0 goalState) x.2) q'
  have hpopmin := astar_pop_min s0 hperm gE q q' E x hInv hpop
  refine ⟨hQ2.entries, hQ2.nodup, hQ2.disj, ?_, ?_, ?_, ?_, ?_, ?_⟩
  · intro s hs
    rcases List.mem_cons.mp hs with rfl | hsE
    · exact hng
    · exact hInv.nongoalE s hsE
  · exact List.nodup_cons.mpr ⟨hxsE, hInv.nodupE⟩
  · intro s hs
    rcases List.mem_cons.mp hs with rfl | hsE
    · refine ⟨SNode.solution x.2, hxv, hxr, ?_⟩
      rw [hxl]
      simp
    · obtain ⟨w, hwv, hwr, hwl⟩ := hInv.closedPaths s hsE
      refine ⟨w, hwv, hwr, ?_⟩
      rw [hwl]
      have hne : s ≠ SNode.state x.2 := fun h => hxsE (h ▸ hsE)
      simp [hne]
  · intro s hs m hm
    rcases List.mem_cons.mp hs with rfl | hsE
    · obtain ⟨w, hwv, hwr, hwl⟩ := hm
      have := hpopmin w hwv hwr
      simp only [if_pos rfl, if_true]
      omega
    · have hne : s ≠ SNode.state x.2 := fun h => hxsE (h ▸ hsE)
      simp only [if_neg hne]
      exact hInv.closedOpt s hsE m hm
  · intro s hs a ha
    rcases List.mem_cons.mp hs with rfl | hsE
    · have hcmem : SNode.child ((eightPuzzle s0 goalState).result (SNode.state x.2) a) a
          ((eightPuzzle s0 goalState).path_cost (SNode.path_cost x.2) (SNode.state x.2) a
            ((eightPuzzle s0 goalState).result (SNode.state x.2) a)) x.2 ∈
          SNode.expand (eightPuzzle s0 goalState) x.2 :=
        mem_expand.mpr ⟨a, ha, rfl⟩
      rcases foldl_bestFirstStep_child (eightPuzzle s0 goalState)
        (EightPuzzle.hState goalState) s0 (SNode.state x.2 :: E) f hf
        (SNode.expand (eightPuzzle s0 goalState) x.2) q' hQ hcs _ hcmem with hex | hlive
      · exact Or.inl hex
      · right
        obtain ⟨e, he, hst, hc⟩ := hlive
        refine ⟨e, he, hst, ?_⟩
        simp only [if_pos rfl, if_true]
        exact hc
    · rcases hInv.closure s hsE a ha with hres | ⟨e, he, hst, hc⟩
      · exact Or.inl (List.mem_cons_of_mem _ hres)
      · by_cases hx : SNode.state e.2 = SNode.state x.2
        · left
          rw [← hst, hx]
          exact List.mem_cons_self _ _
        · have he' : e ∈ q' := by
            rcases List.mem_cons.mp (hxperm.mem_iff.mp he) with rfl | he'
            · exact absurd rfl hx
            · exact he'
          have hne : s ≠ SNode.state x.2 := fun h => hxsE (h ▸ hsE)
          have hlive := hliveLE ((eightPuzzle s0 goalState).result s a) (gE s + 1)
            hQ hcs ⟨e, he', hst, hc⟩
          obtain ⟨e2, he2, hst2, hc2⟩ := hlive
          refine Or.inr ⟨e2, he2, hst2, ?_⟩
          simp only [if_neg hne]
          exact hc2
  · rcases hInv.rootIn with hs0 | ⟨e, he, hst, hc⟩
    · exact Or.inl (List.mem_cons_of_mem _ hs0)
    · by_cases hx : SNode.state e.2 = SNode.state x.2
      · left
        rw [← hst, hx]
        exact List.mem_cons_self _ _
      · have he' : e ∈ q' := by
          rcases List.mem_cons.mp (hxperm.mem_iff.mp he) with rfl | he'
          · exact absurd rfl hx
          · exact he'
        have hlive := hliveLE s0 0 hQ hcs ⟨e, he', hst, Nat.le_of_eq hc⟩
        obtain ⟨e2, he2, hst2, hc2⟩ := hlive
        exact Or.inr ⟨e2, he2, hst2, Nat.le_zero.mp hc2⟩

/-! ### C1 part 9: soundness and completeness of the A* loop. -/

lemma astarLoop_sound (s0 : List Nat) (hperm : List.Perm s0 (List.range 9))
    (f : SNode (List Nat) Char → Nat)
    (hf : ∀ nd, f nd = SNode.path_cost nd + EightPuzzle.hState goalState (SNode.state nd)) :
    ∀ (fuel : Nat) (q : List (Nat × SNode (List Nat) Char)) (E : List (List Nat))
      (gE : List Nat → Nat) (n : SNode (List Nat) Char),
      AInv (eightPuzzle s0 goalState) (EightPuzzle.hState goalState) s0 gE q E →
      bestFirstLoop (eightPuzzle s0 goalState) f fuel q E = some n →
      validSeq (eightPuzzle s0 goalState) s0 (SNode.solution n) = true ∧
      replay (eightPuzzle s0 goalState) s0 (SNode.solution n) = goalState ∧
      ∀ w, validSeq (eightPuzzle s0 goalState) s0 w = true →
        replay (eightPuzzle s0 goalState) s0 w = goalState →
        (SNode.solution n).length ≤ w.length
  | 0, q, E, gE, n, _, h => by
    rw [bestFirstLoop] at h
    cases h
  | fuel + 1, q, E, gE, n, hInv, h => by
    rw [bestFirstLoop] at h
    cases hpop : pqPop q with
    | none =>
      rw [hpop] at h
      cases h
    | some xq =>
      obtain ⟨⟨fv, node⟩, q'⟩ := xq
      simp only [hpop] at h
      by_cases hg : (eightPuzzle s0 goalState).goal_test (SNode.state node) = true
      · rw [if_pos hg] at h
        obtain rfl : node = n := (Option.some.injEq _ _).mp h
        obtain ⟨hxf, hxv, hxr, hxl⟩ :=
          hInv.entries (fv, node) (pqPop_spec q q' (fv, node) hpop).1
        have hgoal : SNode.state node = goalState := (goal_test_iff s0 _).mp hg
        refine ⟨hxv, hxr.trans hgoal, ?_⟩
        intro w hw1 hw2
        have hpm := astar_pop_min s0 hperm gE q q' E (fv, node) hInv hpop w hw1
          (hw2.trans hgoal.symm)
        show (SNode.solution ((fv, node) : Nat × SNode (List Nat) Char).2).length ≤ w.length
        omega
      · rw [if_neg hg] at h
        have hng : (eightPuzzle s0 goalState).goal_test (SNode.state node) = false :=
          bool_eq_false hg
        have hInv2 := astar_step_inv s0 hperm f hf gE q q' E (fv, node) hInv hpop hng
        exact astarLoop_sound s0 hperm f hf fuel _ _ _ n hInv2 h

lemma astarInv_init (s0 : List Nat) (f : SNode (List Nat) Char → Nat)
    (hf : ∀ nd, f nd = SNode.path_cost nd + EightPuzzle.hState goalState (SNode.state nd)) :
    AInv (eightPuzzle s0 goalState) (EightPuzzle.hState goalState) s0 (fun _ => 0)
      [(f (SNode.root s0), SNode.root s0)] [] := by
  refine ⟨?_, ?_, ?_, ?_, ?_, ?_, ?_, ?_, ?_⟩
  · intro e he
    rw [List.mem_singleton.mp he]
    exact ⟨hf _, rfl, rfl, rfl⟩
  · simp [pqStates]
  · intro s _
    exact List.not_mem_nil s
  · intro s hs
    cases hs
  · exact List.nodup_nil
  · intro s hs
    cases hs
  · intro s hs
    cases hs
  · intro s hs
    cases hs
  · exact Or.inr ⟨(f (SNode.root s0), SNode.root s0), List.mem_singleton_self _, rfl, rfl⟩

lemma astarLoop_complete (s0 : List Nat) (hperm : List.Perm s0 (List.range 9))
    (f : SNode (List Nat) Char → Nat)
    (hf : ∀ nd, f nd = SNode.path_cost nd + EightPuzzle.hState goalState (SNode.state nd))
    (wg : List Char) (hwgv : validSeq (eightPuzzle s0 goalState) s0 wg = true)
    (hwgr : replay (eightPuzzle s0 goalState) s0 wg = goalState) :
    ∀ (fuel : Nat) (q : List (Nat × SNode (List Nat) Char)) (E : List (List Nat))
      (gE : List Nat → Nat),
      AInv (eightPuzzle s0 goalState) (EightPuzzle.hState goalState) s0 gE q E →
      (∀ s ∈ E, s ∈ (List.range 9).permutations) →
      (List.range 9).permutations.length + 1 ≤ E.length + fuel →
      ∃ c, bestFirstLoop (eightPuzzle s0 goalState) f fuel q E = some c
  | 0, q, E, gE, hInv, hEU, hfuel => by
    exfalso
    have hle : E.length ≤ (List.range 9).permutations.length :=
      (List.subperm_of_subset hInv.nodupE hEU).length_le
    omega
  | fuel + 1, q, E, gE, hInv, hEU, hfuel => by
    cases hpop : pqPop q with
    | none =>
      exfalso
      have hq : q = [] := (pqPop_eq_none q).mp hpop
      have hgE : replay (eightPuzzle s0 goalState) s0 wg ∉ E := by
        rw [hwgr]
        intro hmem
        have hfalse := hInv.nongoalE goalState hmem
        rw [(goal_test_iff s0 goalState).mpr rfl] at hfalse
        cases hfalse
      obtain ⟨u, v, e, hw, he, _, _⟩ :=
        aInv_crossing (eightPuzzle s0 goalState) (EightPuzzle.hState goalState) s0 gE q E
          hInv wg hwgv hgE
      rw [hq] at he
      cases he
    | some xq =>
      obtain ⟨⟨fv, node⟩, q'⟩ := xq
      by_cases hg : (eightPuzzle s0 goalState).goal_test (SNode.state node) = true
      · refine ⟨node, ?_⟩
        rw [bestFirstLoop]
        simp only [hpop]
        rw [if_pos hg]
      · have hng : (eightPuzzle s0 goalState).goal_test (SNode.state node) = false :=
          bool_eq_false hg
        have hInv2 := astar_step_inv s0 hperm f hf gE q q' E (fv, node) hInv hpop hng
        obtain ⟨_, hxv, hxr, _⟩ :=
          hInv.entries (fv, node) (pqPop_spec q q' (fv, node) hpop).1
        have hnperm : SNode.state ((fv, node) : Nat × SNode (List Nat) Char).2 ∈
            (List.range 9).permutations := by
          rw [← hxr]
          exact List.mem_permutations.mpr (replay_perm_range s0 _ s0 hperm hxv)
        have hEU' : ∀ s ∈ SNode.state ((fv, node) : Nat × SNode (List Nat) Char).2 :: E,
            s ∈ (List.range 9).permutations := by
          intro s hs
          rcases List.mem_cons.mp hs with rfl | hs'
          · exact hnperm
          · exact hEU s hs'
        have hfuel' : (List.range 9).permutations.length + 1 ≤
            (SNode.state ((fv, node) : Nat × SNode (List Nat) Char).2 :: E).length + fuel := by
          simp only [List.length_cons]
          omega
        obtain ⟨c, hc⟩ := astarLoop_complete s0 hperm f hf wg hwgv hwgr fuel _ _ _
          hInv2 hEU' hfuel'
        refine ⟨c, ?_⟩
        rw [bestFirstLoop]
        simp only [hpop]
        rw [if_neg hg]
        exact hc

lemma astar_returns_shortest (s0 : List Nat) (hperm : List.Perm s0 (List.range 9))
    (wg : List Char) (hwgv : validSeq (eightPuzzle s0 goalState) s0 wg = true)
    (hwgr : replay (eightPuzzle s0 goalState) s0 wg = goalState) :
    (∀ fuel n, astar_search (eightPuzzle s0 goalState) (EightPuzzle.h goalState) fuel =
        some n →
      validSeq (eightPuzzle s0 goalState) s0 (SNode.solution n) = true ∧
      replay (eightPuzzle s0 goalState) s0 (SNode.solution n) = goalState ∧
      ∀ w, validSeq (eightPuzzle s0 goalState) s0 w = true →
        replay (eightPuzzle s0 goalState) s0 w = goalState →
        (SNode.solution n).length ≤ w.length) ∧
    (∃ fuel n, astar_search (eightPuzzle s0 goalState) (EightPuzzle.h goalState) fuel =
      some n) := by
  have hf : ∀ nd : SNode (List Nat) Char,
      (fun m => SNode.path_cost m + EightPuzzle.h goalState m) nd =
      SNode.path_cost nd + EightPuzzle.hState goalState (SNode.state nd) := fun _ => rfl
  constructor
  · intro fuel n h
    rw [astar_search, best_first_graph_search] at h
    exact astarLoop_sound s0 hperm _ hf fuel _ _ (fun _ => 0) n (astarInv_init s0 _ hf) h
  · obtain ⟨c, hc⟩ := astarLoop_complete s0 hperm _ hf wg hwgv hwgr
      ((List.range 9).permutations.length + 1)
      [((fun m => SNode.path_cost m + EightPuzzle.h goalState m) (SNode.root s0),
        SNode.root s0)] [] (fun _ => 0)
      (astarInv_init s0 _ hf) (fun s hs => by cases hs)
      (le_of_eq (by rw [List.length_nil, Nat.zero_add]))
    refine ⟨(List.range 9).permutations.length + 1, c, ?_⟩
    rw [astar_search, best_first_graph_search]
    exact hc

/-- C1: for every solvable board — a permutation `s0` of 0..8 from which some
valid action sequence reaches the goal — `breadth_first_graph_search` and
`astar_search` with the H1 heuristic `EightPuzzle.h` each return (for every
fuel making them return a node, and some fuel does) a node whose `solution()`
is a valid action sequence transforming `s0` into the goal by repeated
`result()` application, of minimal length among all such sequences.  (The
frontier of `astar_search` is modelled from the spec, `utils.py` not being
part of the source tree.) -/
theorem bfs_astar_return_minimal_solutions (s0 : List Nat)
    (hperm : List.Perm s0 (List.range 9))
    (wg : List Char) (hwgv : validSeq (eightPuzzle s0 goalState) s0 wg = true)
    (hwgr : replay (eightPuzzle s0 goalState) s0 wg = goalState) :
    ((∀ fuel n, breadth_first_graph_search (eightPuzzle s0 goalState) fuel = some n →
      validSeq (eightPuzzle s0 goalState) s0 (SNode.solution n) = true ∧
      replay (eightPuzzle s0 goalState) s0 (SNode.solution n) = goalState ∧
      ∀ w, validSeq (eightPuzzle s0 goalState) s0 w = true →
        replay (eightPuzzle s0 goalState) s0 w = goalState →
        (SNode.solution n).length ≤ w.length) ∧
    (∃ fuel n, breadth_first_graph_search (eightPuzzle s0 goalState) fuel = some n)) ∧
    ((∀ fuel n, astar_search (eightPuzzle s0 goalState) (EightPuzzle.h goalState) fuel =
        some n →
      validSeq (eightPuzzle s0 goalState) s0 (SNode.solution n) = true ∧
      replay (eightPuzzle s0 goalState) s0 (SNode.solution n) = goalState ∧
      ∀ w, validSeq (eightPuzzle s0 goalState) s0 w = true →
        replay (eightPuzzle s0 goalState) s0 w = goalState →
        (SNode.solution n).length ≤ w.length) ∧
    (∃ fuel n, astar_search (eightPuzzle s0 goalState) (EightPuzzle.h goalState) fuel =
      some n)) :=
  ⟨bfs_returns_shortest s0 hperm wg hwgv hwgr,
    astar_returns_shortest s0 hperm wg hwgv hwgr⟩

/-- Witness for C1: the solvable board `(1,2,3,4,5,6,7,0,8)`, one tile slide
(`'L'`) away from the goal. -/
theorem bfs_astar_return_minimal_solutions_witness :
    List.Perm [1, 2, 3, 4, 5, 6, 7, 0, 8] (List.range 9) ∧
    validSeq (eightPuzzle [1, 2, 3, 4, 5, 6, 7, 0, 8] goalState)
      [1, 2, 3, 4, 5, 6, 7, 0, 8] ['L'] = true ∧
    replay (eightPuzzle [1, 2, 3, 4, 5, 6, 7, 0, 8] goalState)
      [1, 2, 3, 4, 5, 6, 7, 0, 8] ['L'] = goalState ∧
    (((∀ fuel n, breadth_first_graph_search
        (eightPuzzle [1, 2, 3, 4, 5, 6, 7, 0, 8] goalState) fuel = some n →
      validSeq (eightPuzzle [1, 2, 3, 4, 5, 6, 7, 0, 8] goalState)
        [1, 2, 3, 4, 5, 6, 7, 0, 8] (SNode.solution n) = true ∧
      replay (eightPuzzle [1, 2, 3, 4, 5, 6, 7, 0, 8] goalState)
        [1, 2, 3, 4, 5, 6, 7, 0, 8] (SNode.solution n) = goalState ∧
      ∀ w, validSeq (eightPuzzle [1, 2, 3, 4, 5, 6, 7, 0, 8] goalState)
          [1, 2, 3, 4, 5, 6, 7, 0, 8] w = true →
        replay (eightPuzzle [1, 2, 3, 4, 5, 6, 7, 0, 8] goalState)
          [1, 2, 3, 4, 5, 6, 7, 0, 8] w = goalState →
        (SNode.solution n).length ≤ w.length) ∧
    (∃ fuel n, breadth_first_graph_search
      (eightPuzzle [1, 2, 3, 4, 5, 6, 7, 0, 8] goalState) fuel = some n)) ∧
    ((∀ fuel n, astar_search (eightPuzzle [1, 2, 3, 4, 5, 6, 7, 0, 8] goalState)
        (EightPuzzle.h goalState) fuel = some n →
      validSeq (eightPuzzle [1, 2, 3, 4, 5, 6, 7, 0, 8] goalState)
        [1, 2, 3, 4, 5, 6, 7, 0, 8] (SNode.solution n) = true ∧
      replay (eightPuzzle [1, 2, 3, 4, 5, 6, 7, 0, 8] goalState)
        [1, 2, 3, 4, 5, 6, 7, 0, 8] (SNode.solution n) = goalState ∧
      ∀ w, validSeq (eightPuzzle [1, 2, 3, 4, 5, 6, 7, 0, 8] goalState)
          [1, 2, 3, 4, 5, 6, 7, 0, 8] w = true →
        replay (eightPuzzle [1, 2, 3, 4, 5, 6, 7, 0, 8] goalState)
          [1, 2, 3, 4, 5, 6, 7, 0, 8] w = goalState →
        (SNode.solution n).length ≤ w.length) ∧
    (∃ fuel n, astar_search (eightPuzzle [1, 2, 3, 4, 5, 6, 7, 0, 8] goalState)
      (EightPuzzle.h goalState) fuel = some n))) :=
  ⟨by decide, by decide, by decide,
    bfs_astar_return_minimal_solutions [1, 2, 3, 4, 5, 6, 7, 0, 8] (by decide)
      ['L'] (by decide) (by decide)⟩
